import Mathlib

/-!
# tt: compiling a time interval into a regular expression

A shallow embedding of `tt.go` (package `tt` of d2verb/tt) and a verification
development about it.

Modelling conventions.
* Go `int` is modelled by `Int`; `/` and `%` on `int` truncate toward zero, so
  they are `Int.tdiv` and `Int.tmod`.  `genDigitsRange` is the vector the source
  function returns when the counter of its outer loop does not wrap around, that
  is for every `end` below the greatest `int`, `2^63 - 1`; `genDigitsRangeRun` is
  the same loop with the wrapping counter and a bound on the number of passes,
  and `genDigitsRangeRun_eq` relates the two.
* Go `string` is modelled by `List Char`.
* A Go result `(*string, error)` is modelled by `Except (List Char) (List Char)`:
  the error carries the message built by `fmt.Errorf`.
* A Go slice `[]*valueRange` is modelled by `List valueRange`; every element of
  such a slice is a freshly allocated record, so no two indices alias.
* `*time.Time` is modelled by the record `Time` of the six accessors that
  `genRegExp` reads.
* The standard library calls of `run` (the parser behind `parseTime` and the
  method `Before` of `time.Time`) are parameters of its model.
-/

namespace TT

/-! ## Data model -/

/-- The record `valueRange` of the source: the largest and the smallest digit
seen at one digit position. -/
structure valueRange where
  max : Int
  min : Int
deriving DecidableEq, Repr

/-- The constructor `newValueRange`: `max = math.MinInt32`, `min = math.MaxInt32`. -/
def newValueRange : valueRange :=
  { max := -2147483648, min := 2147483647 }

/-- The helper `min` of the source. -/
def min (a b : Int) : Int :=
  if a < b then a else b

/-- The helper `max` of the source. -/
def max (a b : Int) : Int :=
  if a < b then b else a

/-- The six accessors of `time.Time` read by `genRegExp`. -/
structure Time where
  year : Int
  month : Int
  day : Int
  hour : Int
  minute : Int
  second : Int
deriving DecidableEq, Repr

/-- The verb `%v` of `fmt.Sprintf` applied to an `int`: its decimal numeral,
with a leading `-` when negative. -/
def fmtInt (v : Int) : List Char :=
  (toString v).toList

/-! ## The digit-range extractor -/

/-- The values taken by `i` in `for i := start; i <= end; i++` when the counter
does not wrap around, that is for `end` below the greatest `int`; `scanLoop` is the
loop with its wrapping counter. -/
def loopValues (start end_ : Int) : List Int :=
  (List.range (end_ + 1 - start).toNat).map (fun (k : Nat) => start + (k : Int))

/-- The two assignments `vr.max = max(vr.max, digit)` and `vr.min = min(vr.min, digit)`. -/
def observe (vr : valueRange) (digit : Int) : valueRange :=
  { max := max vr.max digit, min := min vr.min digit }

/-- One pass of the body of `for j := 0; j < nd; j++` in `genDigitsRange`: the
state is the slice `digits` and the variable `value`. -/
def digitStep (st : List valueRange × Int) (j : Nat) : List valueRange × Int :=
  let digit := Int.tmod st.2 10
  (st.1.modify (fun vr => observe vr digit) j, Int.tdiv st.2 10)

/-- The body of the outer loop of `genDigitsRange` for one `i`. -/
def scanValue (nd : Nat) (digits : List valueRange) (i : Int) : List valueRange :=
  ((List.range nd).foldl digitStep (digits, i)).1

/-- The vector that `genDigitsRange(start, end, nd)` returns, for `end` below the
greatest `int`. -/
def genDigitsRange (start end_ : Int) (nd : Nat) : List valueRange :=
  (loopValues start end_).foldl (scanValue nd) (List.replicate nd newValueRange)

/-! ## Rendering -/

/-- One pass of the body of the loop of `genRegExpRange`. -/
def renderStep (regexp : List Char) (vr : valueRange) : List Char :=
  if vr.max = vr.min then
    fmtInt vr.max ++ regexp
  else
    "[".toList ++ fmtInt vr.min ++ "-".toList ++ fmtInt vr.max ++ "]".toList ++ regexp

/-- The function `genRegExpRange`: it never returns an error. -/
def genRegExpRange (digitsRange : List valueRange) : Except (List Char) (List Char) :=
  .ok (digitsRange.foldl renderStep [])

/-- The loop `for d, vr := range other { digitsRange[d].max = ...; digitsRange[d].min = ... }`
of the broadened branch of the field compilers. -/
def mergeRanges (digitsRange other : List valueRange) : List valueRange :=
  other.enum.foldl
    (fun dr p => dr.modify (fun x => { max := max x.max p.2.max, min := min x.min p.2.min }) p.1)
    digitsRange

/-! ## The field compilers -/

/-- The function `genRegExpYear`. -/
def genRegExpYear (startYear endYear : Int) : Except (List Char) (List Char) :=
  genRegExpRange (genDigitsRange startYear endYear 4)

/-- The function `genRegExpMonth`. -/
def genRegExpMonth (startMonth endMonth : Int) (matchTilYear : Bool) :
    Except (List Char) (List Char) :=
  if matchTilYear then
    if startMonth > endMonth then
      .error ("start month (".toList ++ fmtInt startMonth ++
        ") is greater than end month (".toList ++ fmtInt endMonth ++ ")".toList)
    else
      genRegExpRange (genDigitsRange startMonth endMonth 2)
  else
    genRegExpRange (mergeRanges (genDigitsRange startMonth 12 2) (genDigitsRange 1 endMonth 2))

/-- The function `genRegExpDay`. -/
def genRegExpDay (startDay endDay : Int) (matchTilMonth : Bool) :
    Except (List Char) (List Char) :=
  if matchTilMonth then
    if startDay > endDay then
      .error ("start day (".toList ++ fmtInt startDay ++
        ") is greater than end day (".toList ++ fmtInt endDay ++ ")".toList)
    else
      genRegExpRange (genDigitsRange startDay endDay 2)
  else
    genRegExpRange (mergeRanges (genDigitsRange startDay 31 2) (genDigitsRange 1 endDay 2))

/-- The function `genRegExpHour`. -/
def genRegExpHour (startHour endHour : Int) (matchTilDay : Bool) :
    Except (List Char) (List Char) :=
  if matchTilDay then
    if startHour > endHour then
      .error ("start hour (".toList ++ fmtInt startHour ++
        ") is greater than end hour (".toList ++ fmtInt endHour ++ ")".toList)
    else
      genRegExpRange (genDigitsRange startHour endHour 2)
  else
    genRegExpRange (mergeRanges (genDigitsRange startHour 23 2) (genDigitsRange 0 endHour 2))

/-- The function `genRegExpMinute`. -/
def genRegExpMinute (startMinute endMinute : Int) (matchTilHour : Bool) :
    Except (List Char) (List Char) :=
  if matchTilHour then
    if startMinute > endMinute then
      .error ("start minute (".toList ++ fmtInt startMinute ++
        ") is greater than end minute (".toList ++ fmtInt endMinute ++ ")".toList)
    else
      genRegExpRange (genDigitsRange startMinute endMinute 2)
  else
    genRegExpRange (mergeRanges (genDigitsRange startMinute 59 2) (genDigitsRange 0 endMinute 2))

/-- The function `genRegExpSecond`. -/
def genRegExpSecond (startSecond endSecond : Int) (matchTilMinute : Bool) :
    Except (List Char) (List Char) :=
  if matchTilMinute then
    if startSecond > endSecond then
      .error ("start second (".toList ++ fmtInt startSecond ++
        ") is greater than end second (".toList ++ fmtInt endSecond ++ ")".toList)
    else
      genRegExpRange (genDigitsRange startSecond endSecond 2)
  else
    genRegExpRange (mergeRanges (genDigitsRange startSecond 59 2) (genDigitsRange 0 endSecond 2))

/-! ## The pattern assembler -/

/-- The function `simplify`, that is `strings.Replace(regexp, "[0-9]", "\\d", -1)`:
every occurrence of `[0-9]`, found from the left and not overlapping an earlier
one, is replaced by the two characters `\d`. -/
def simplify : List Char → List Char
  | '[' :: '0' :: '-' :: '9' :: ']' :: rest => '\\' :: 'd' :: simplify rest
  | c :: rest => c :: simplify rest
  | [] => []

/-- The function `genRegExp`. -/
def genRegExp (startTime endTime : Time) : Except (List Char) (List Char) := do
  let yearPart ← genRegExpYear startTime.year endTime.year
  let match1 := decide (startTime.year = endTime.year)
  let monthPart ← genRegExpMonth startTime.month endTime.month match1
  let match2 := match1 && decide (startTime.month = endTime.month)
  let dayPart ← genRegExpDay startTime.day endTime.day match2
  let match3 := match2 && decide (startTime.day = endTime.day)
  let hourPart ← genRegExpHour startTime.hour endTime.hour match3
  let match4 := match3 && decide (startTime.hour = endTime.hour)
  let minutePart ← genRegExpMinute startTime.minute endTime.minute match4
  let match5 := match4 && decide (startTime.minute = endTime.minute)
  let secondPart ← genRegExpSecond startTime.second endTime.second match5
  let regexp := yearPart ++ "-".toList ++ monthPart ++ "-".toList ++ dayPart ++ " ".toList ++
    hourPart ++ ":".toList ++ minutePart ++ ":".toList ++ secondPart
  pure (simplify regexp)

/-! ## Specification vocabulary -/

/-- The fragment rendered by the loop of `genRegExpRange`. -/
def render (digitsRange : List valueRange) : List Char :=
  digitsRange.foldl renderStep []

/-- The message of the field-ordering contradiction error for the field `name`. -/
def orderingError (name : String) (startValue endValue : Int) : List Char :=
  "start ".toList ++ name.toList ++ " (".toList ++ fmtInt startValue ++
    ") is greater than end ".toList ++ name.toList ++ " (".toList ++ fmtInt endValue ++
    ")".toList

/-- A result is an error. -/
def isError (r : Except (List Char) (List Char)) : Prop :=
  ∃ msg, r = .error msg

/-- The fragment a field compiler with domain `[fieldMin, fieldMax]` produces
when it does not fail. -/
def fieldFragment (fieldMin fieldMax startValue endValue : Int) (flag : Bool) : List Char :=
  if flag then render (genDigitsRange startValue endValue 2)
  else render (mergeRanges (genDigitsRange startValue fieldMax 2)
    (genDigitsRange fieldMin endValue 2))

/-- The strict order of timestamps as six-tuples in the order year, month, day,
hour, minute, second. -/
def before (s e : Time) : Prop :=
  s.year < e.year ∨ (s.year = e.year ∧
    (s.month < e.month ∨ (s.month = e.month ∧
      (s.day < e.day ∨ (s.day = e.day ∧
        (s.hour < e.hour ∨ (s.hour = e.hour ∧
          (s.minute < e.minute ∨ (s.minute = e.minute ∧ s.second < e.second)))))))))

instance (s e : Time) : Decidable (before s e) := by
  unfold before
  infer_instance

/-- The fields of a timestamp lie in their domains: year 0..9999, month 1..12,
day 1..31, hour 0..23, minute and second 0..59. -/
def inDomain (t : Time) : Prop :=
  (0 ≤ t.year ∧ t.year ≤ 9999) ∧ (1 ≤ t.month ∧ t.month ≤ 12) ∧ (1 ≤ t.day ∧ t.day ≤ 31) ∧
    (0 ≤ t.hour ∧ t.hour ≤ 23) ∧ (0 ≤ t.minute ∧ t.minute ≤ 59) ∧
    (0 ≤ t.second ∧ t.second ≤ 59)

instance (t : Time) : Decidable (inDomain t) := by
  unfold inDomain
  infer_instance

/-- The field of a timestamp at rank `k`: 0 is the year, 5 the second. -/
def fieldValue (k : Nat) (t : Time) : Int :=
  match k with
  | 0 => t.year
  | 1 => t.month
  | 2 => t.day
  | 3 => t.hour
  | 4 => t.minute
  | _ => t.second

/-- The name of the field at rank `k`, as the error messages spell it. -/
def fieldName (k : Nat) : String :=
  match k with
  | 0 => "year"
  | 1 => "month"
  | 2 => "day"
  | 3 => "hour"
  | 4 => "minute"
  | _ => "second"

/-- The field at rank `k` contradicts the order: every more significant field of
`s` and `e` is equal and the field of `s` is greater than that of `e`. -/
def contradicts (s e : Time) (k : Nat) : Prop :=
  (∀ j, j < k → fieldValue j s = fieldValue j e) ∧ fieldValue k s > fieldValue k e

/-- The text handed to `simplify` by `genRegExp` when no field compiler fails. -/
def rawPattern (s e : Time) : List Char :=
  render (genDigitsRange s.year e.year 4) ++ "-".toList ++
    fieldFragment 1 12 s.month e.month (decide (s.year = e.year)) ++ "-".toList ++
    fieldFragment 1 31 s.day e.day (decide (s.year = e.year) && decide (s.month = e.month)) ++
    " ".toList ++
    fieldFragment 0 23 s.hour e.hour
      (decide (s.year = e.year) && decide (s.month = e.month) && decide (s.day = e.day)) ++
    ":".toList ++
    fieldFragment 0 59 s.minute e.minute
      (decide (s.year = e.year) && decide (s.month = e.month) && decide (s.day = e.day) &&
        decide (s.hour = e.hour)) ++
    ":".toList ++
    fieldFragment 0 59 s.second e.second
      (decide (s.year = e.year) && decide (s.month = e.month) && decide (s.day = e.day) &&
        decide (s.hour = e.hour) && decide (s.minute = e.minute))

/-- The variable `value` of `genDigitsRange` after `p` passes of `value /= 10`. -/
def shifted (v : Int) (p : Nat) : Int :=
  (fun x => Int.tdiv x 10)^[p] v

/-- The digit `value % 10` that `genDigitsRange` reads at position `p` of `v`. -/
def loopDigit (v : Int) (p : Nat) : Int :=
  Int.tmod (shifted v p) 10

/-- The record at position `p` after scanning the values `vs`, starting from `acc`. -/
def scanDigit (p : Nat) (vs : List Int) (acc : valueRange) : valueRange :=
  vs.foldl (fun a v => observe a (loopDigit v p)) acc

/-- The decimal digit of `v` at position `p` (0 is the least significant), the
quantity `(floor(v / 10^p)) mod 10` of the specification. -/
def digitAt (v : Int) (p : Nat) : Int :=
  (v / 10 ^ p) % 10

/-- The character of the decimal digit `d`. -/
def digitChr (d : Int) : Char :=
  Char.ofNat (48 + d.toNat)

/-- The text one record contributes to the fragment. -/
def atom (vr : valueRange) : List Char :=
  renderStep [] vr

/-- The element-wise merge of the broadened branch: the smaller `min`, the larger `max`. -/
def merge (x y : valueRange) : valueRange :=
  { max := max x.max y.max, min := min x.min y.min }

/-- A record holds digits in order: `0 <= min <= max <= 9`. -/
def valid (vr : valueRange) : Prop :=
  0 ≤ vr.min ∧ vr.min ≤ vr.max ∧ vr.max ≤ 9

/-- The text of one record after the substitution pass. -/
def simplifiedAtom (vr : valueRange) : List Char :=
  if vr.max = vr.min then [digitChr vr.max]
  else if vr.min = 0 ∧ vr.max = 9 then ['\\', 'd']
  else ['[', digitChr vr.min, '-', digitChr vr.max, ']']

/-- The record of digit position `p` of the year. -/
def yearBox (startYear endYear : Int) (p : Nat) : valueRange :=
  scanDigit p (loopValues startYear endYear) newValueRange

/-- The record of digit position `p` of a field with domain `[fieldMin, fieldMax]`. -/
def fieldBox (fieldMin fieldMax startValue endValue : Int) (flag : Bool) (p : Nat) :
    valueRange :=
  if flag then scanDigit p (loopValues startValue endValue) newValueRange
  else merge (scanDigit p (loopValues startValue fieldMax) newValueRange)
    (scanDigit p (loopValues fieldMin endValue) newValueRange)

/-- A pattern of the dialect the tool emits, matched against a whole string:
the token `\d` accepts any decimal digit, a class `[a-b]` accepts any character
from `a` to `b`, any other character accepts itself. -/
def reMatch : List Char → List Char → Bool
  | [], [] => true
  | '\\' :: 'd' :: p, c :: s => c.isDigit && reMatch p s
  | '[' :: a :: '-' :: b :: ']' :: p, c :: s =>
    (decide (a ≤ c) && decide (c ≤ b)) && reMatch p s
  | x :: p, c :: s => (x == c) && reMatch p s
  | _, _ => false

/-- The `w` least significant decimal digits of `v`, most significant first. -/
def pad (w : Nat) (v : Int) : List Char :=
  ((List.range w).reverse).map (fun p => digitChr (digitAt v p))

/-- The text of a timestamp in the layout `2006-01-02 15:04:05`. -/
def formatTime (t : Time) : List Char :=
  pad 4 t.year ++ "-".toList ++ pad 2 t.month ++ "-".toList ++ pad 2 t.day ++ " ".toList ++
    pad 2 t.hour ++ ":".toList ++ pad 2 t.minute ++ ":".toList ++ pad 2 t.second

/-- The flag handed to the compiler of the field at rank `k`: every more
significant field of `s` and `e` is equal (the variable `match` of `genRegExp`). -/
def tight (s e : Time) (k : Nat) : Bool :=
  match k with
  | 0 => true
  | k + 1 => tight s e k && decide (fieldValue k s = fieldValue k e)

/-- The lower bound of the domain of the field at rank `k`. -/
def fieldMin (k : Nat) : Int :=
  match k with
  | 1 => 1
  | 2 => 1
  | _ => 0

/-- The upper bound of the domain of the field at rank `k`. -/
def fieldMax (k : Nat) : Int :=
  match k with
  | 0 => 9999
  | 1 => 12
  | 2 => 31
  | 3 => 23
  | _ => 59

/-- The number of digits of the field at rank `k`. -/
def fieldWidth (k : Nat) : Nat :=
  match k with
  | 0 => 4
  | _ => 2

/-- The record that `genRegExp` computes for digit position `p` of the field at rank `k`. -/
def box (s e : Time) (k p : Nat) : valueRange :=
  match k with
  | 0 => yearBox s.year e.year p
  | k + 1 =>
    fieldBox (fieldMin (k + 1)) (fieldMax (k + 1)) (fieldValue (k + 1) s)
      (fieldValue (k + 1) e) (tight s e (k + 1)) p

/-- The digit `d` lies in the record `vr`. -/
def inBox (vr : valueRange) (d : Int) : Prop :=
  vr.min ≤ d ∧ d ≤ vr.max

instance (vr : valueRange) (d : Int) : Decidable (inBox vr d) := by
  unfold inBox
  infer_instance

/-- The shape `A4-A2-A2 A2:A2:A2` of a pattern, for the atom texts `a k p` of
digit position `p` of the field at rank `k`. -/
def layoutOf (a : Nat → Nat → List Char) : List Char :=
  a 0 3 ++ (a 0 2 ++ (a 0 1 ++ (a 0 0 ++ '-' ::
    (a 1 1 ++ (a 1 0 ++ '-' ::
    (a 2 1 ++ (a 2 0 ++ ' ' ::
    (a 3 1 ++ (a 3 0 ++ ':' ::
    (a 4 1 ++ (a 4 0 ++ ':' ::
    (a 5 1 ++ a 5 0))))))))))))

/-- The pattern as a sequence of simplified atoms and separators, for the
records `b k p` of digit position `p` of the field at rank `k`. -/
def assemble (b : Nat → Nat → valueRange) : List Char :=
  layoutOf (fun k p => simplifiedAtom (b k p))

/-- A text is one atom of the dialect: a literal digit, the token `\d`, or a
class `[a-b]` of digits with `a < b`. -/
def isAtomText (a : List Char) : Prop :=
  (∃ c : Char, c.isDigit = true ∧ a = [c]) ∨ a = ['\\', 'd'] ∨
    ∃ x y : Char, x.isDigit = true ∧ y.isDigit = true ∧ x < y ∧ a = ['[', x, '-', y, ']']

/-- The number a string of decimal digits denotes, most significant digit first. -/
def decimalValue (s : List Char) : Int :=
  s.foldl (fun acc c => acc * 10 + ((c.toNat : Int) - 48)) 0

/-- The function `run`, over the three things it calls. `T` stands for
`time.Time`, whatever it records (down to the nanosecond); `parseTime` is the
wrapper of `time.LoadLocation` and `time.ParseInLocation`, `isBefore` the method
`Before`, `core` the compiler. The successful result is the line that
`fmt.Println` writes. -/
def runWith {T : Type} (parseTime : List Char → Except (List Char) T)
    (isBefore : T → T → Bool) (core : T → T → Except (List Char) (List Char))
    (start end_ : List Char) : Except (List Char) (List Char) := do
  let startTime ← parseTime start
  let endTime ← parseTime end_
  if !(isBefore startTime endTime) then
    throw ("\"".toList ++ start ++ "\" must be older than \"".toList ++ end_ ++ "\"".toList)
  let regexp ← core startTime endTime
  pure (regexp ++ "\n".toList)

/-- The function `run` of the source: the core compiler is `genRegExp`, which reads
the six accessors `fields` of each `time.Time`. -/
def run {T : Type} (parseTime : List Char → Except (List Char) T) (isBefore : T → T → Bool)
    (fields : T → Time) (start end_ : List Char) : Except (List Char) (List Char) :=
  runWith parseTime isBefore (fun a b => genRegExp (fields a) (fields b)) start end_

/-- An instant of a fixed-offset location: the six accessors and the nanosecond. -/
structure Instant where
  fields : Time
  nanosecond : Nat
deriving DecidableEq, Repr

/-- The order of instants: the six-tuple order, then the nanosecond. -/
def Instant.isBefore (a b : Instant) : Bool :=
  decide (before a.fields b.fields ∨ (a.fields = b.fields ∧ a.nanosecond < b.nanosecond))

/-- The record `b` holds the least and the greatest digit at position `p` over the
values satisfying `P`: each is attained and bounds every digit. -/
def isDigitBox (P : Int → Prop) (p : Nat) (b : valueRange) : Prop :=
  (∃ v, P v ∧ digitAt v p = b.min) ∧ (∀ v, P v → b.min ≤ digitAt v p) ∧
    (∃ v, P v ∧ digitAt v p = b.max) ∧ (∀ v, P v → digitAt v p ≤ b.max)

/-- What a field compiler `f` with domain `[fieldMin, fieldMax]` returns for values
of the domain: with the flag false the rendering of the records of the union
`[start, fieldMax] U [fieldMin, end]`, with the flag true and `start <= end` the
rendering of the extraction over `[start, end]`. -/
def compilesField (f : Int → Int → Bool → Except (List Char) (List Char))
    (fieldMin fieldMax : Int) : Prop :=
  ∀ s e : Int, fieldMin ≤ s → s ≤ fieldMax → fieldMin ≤ e → e ≤ fieldMax →
    (∃ b0 b1, f s e false = genRegExpRange [b0, b1] ∧
      mergeRanges (genDigitsRange s fieldMax 2) (genDigitsRange fieldMin e 2) = [b0, b1] ∧
      isDigitBox (fun v => (s ≤ v ∧ v ≤ fieldMax) ∨ (fieldMin ≤ v ∧ v ≤ e)) 0 b0 ∧
      isDigitBox (fun v => (s ≤ v ∧ v ≤ fieldMax) ∨ (fieldMin ≤ v ∧ v ≤ e)) 1 b1) ∧
    (s ≤ e → ∃ b0 b1, f s e true = genRegExpRange [b0, b1] ∧
      genDigitsRange s e 2 = [b0, b1] ∧
      isDigitBox (fun v => s ≤ v ∧ v ≤ e) 0 b0 ∧ isDigitBox (fun v => s ≤ v ∧ v ≤ e) 1 b1)

/-- The inverse substitution `strings.Replace(s, "\\d", "[0-9]", -1)`: every
occurrence of the two characters `\d`, found from the left, becomes `[0-9]`. -/
def expand : List Char → List Char
  | '\\' :: 'd' :: rest => '[' :: '0' :: '-' :: '9' :: ']' :: expand rest
  | c :: rest => c :: expand rest
  | [] => []

/-- The text begins with the character `d`. -/
def startsD (p : List Char) : Prop :=
  ∃ r, p = 'd' :: r

/-- The text is the tail `a-b]...` of a class. -/
def classTail (p : List Char) : Prop :=
  ∃ a b r, p = a :: '-' :: b :: ']' :: r

/-- The order `s <= t` of timestamps as six-tuples. -/
def notAfter (s t : Time) : Prop :=
  before s t ∨ s = t

/-- The first eighteen characters of the text of a timestamp: everything but the
last digit of the second. -/
def textHead (t : Time) : List Char :=
  pad 4 t.year ++ "-".toList ++ pad 2 t.month ++ "-".toList ++ pad 2 t.day ++ " ".toList ++
    pad 2 t.hour ++ ":".toList ++ pad 2 t.minute ++ ":".toList ++
    [digitChr (digitAt t.second 1)]

/-- The value of an `int` expression after wrap-around, for the `int` of 64 bits. -/
def wrapInt (x : Int) : Int :=
  (x + 9223372036854775808) % 18446744073709551616 - 9223372036854775808

/-- The loop `for i := start; i <= end; i++` of `genDigitsRange` with its wrapping
counter, run from the counter `i` and the slice `digits` for at most `fuel` tests
of its condition: `none` when the loop has not exited by then. -/
def scanLoop (nd : Nat) (end_ : Int) : Nat → Int → List valueRange → Option (List valueRange)
  | 0, _, _ => none
  | fuel + 1, i, digits =>
    if i ≤ end_ then scanLoop nd end_ fuel (wrapInt (i + 1)) (scanValue nd digits i)
    else some digits

/-- The function `genDigitsRange` run for at most `fuel` tests of the condition of
its outer loop: `none` when it has not returned by then. -/
def genDigitsRangeRun (fuel : Nat) (start end_ : Int) (nd : Nat) : Option (List valueRange) :=
  scanLoop nd end_ fuel start (List.replicate nd newValueRange)

/-- One item of a bracket expression: a range `a-b`, the class `\d`, or a single
character. -/
inductive ClassItem where
  | range (a b : Char)
  | digit
  | single (c : Char)
deriving DecidableEq, Repr

/-- The characters an item of a bracket expression accepts. -/
def ClassItem.accepts : ClassItem → Char → Bool
  | .range a b, c => decide (a ≤ c) && decide (c ≤ b)
  | .digit, c => c.isDigit
  | .single x, c => x == c

/-- The items of a bracket expression, read from the text after its `[` up to the
closing `]`, and the text after that `]`; `none` when no `]` closes it. -/
def parseClass : List Char → Option (List ClassItem × List Char)
  | [] => none
  | ']' :: rest => some ([], rest)
  | '\\' :: 'd' :: rest => (parseClass rest).map (fun r => (ClassItem.digit :: r.1, r.2))
  | a :: '-' :: ']' :: rest => some ([ClassItem.single a, ClassItem.single '-'], rest)
  | a :: '-' :: b :: rest => (parseClass rest).map (fun r => (ClassItem.range a b :: r.1, r.2))
  | a :: rest => (parseClass rest).map (fun r => (ClassItem.single a :: r.1, r.2))

/-- A pattern read as a regular expression and matched against a whole string,
for patterns without negation, repetition, alternation or groups: `\d` accepts
any decimal digit, `[` opens a bracket expression that runs to the next `]` and
accepts what one of its items accepts, any other character accepts itself. -/
def reEngine : List Char → List Char → Bool
  | [], [] => true
  | '\\' :: 'd' :: p, c :: s => c.isDigit && reEngine p s
  | '[' :: p, c :: s =>
    match parseClass p with
    | some (items, rest) => items.any (fun it => it.accepts c) && reEngine rest s
    | none => false
  | x :: p, c :: s => (x == c) && reEngine p s
  | _, _ => false

/-- A text of the dialect of the tool before the substitution pass: literal
digits, the separators `-`, space and `:`, and classes `[a-b]` of two digits. -/
def isDialect : List Char → Bool
  | [] => true
  | '[' :: a :: '-' :: b :: ']' :: p => a.isDigit && b.isDigit && isDialect p
  | c :: p => (c.isDigit || c == '-' || c == ' ' || c == ':') && isDialect p

/-! ## The field compilers: normal forms -/

theorem genRegExpRange_eq (ds : List valueRange) : genRegExpRange ds = .ok (render ds) := rfl

theorem genRegExpYear_eq (s e : Int) :
    genRegExpYear s e = .ok (render (genDigitsRange s e 4)) := rfl

theorem genRegExpMonth_eq (s e : Int) (flag : Bool) :
    genRegExpMonth s e flag =
      if flag = true ∧ s > e then .error (orderingError "month" s e)
      else .ok (fieldFragment 1 12 s e flag) := by
  cases flag <;> by_cases h : s > e <;>
    simp [genRegExpMonth, fieldFragment, genRegExpRange_eq, orderingError, h]

theorem genRegExpDay_eq (s e : Int) (flag : Bool) :
    genRegExpDay s e flag =
      if flag = true ∧ s > e then .error (orderingError "day" s e)
      else .ok (fieldFragment 1 31 s e flag) := by
  cases flag <;> by_cases h : s > e <;>
    simp [genRegExpDay, fieldFragment, genRegExpRange_eq, orderingError, h]

theorem genRegExpHour_eq (s e : Int) (flag : Bool) :
    genRegExpHour s e flag =
      if flag = true ∧ s > e then .error (orderingError "hour" s e)
      else .ok (fieldFragment 0 23 s e flag) := by
  cases flag <;> by_cases h : s > e <;>
    simp [genRegExpHour, fieldFragment, genRegExpRange_eq, orderingError, h]

theorem genRegExpMinute_eq (s e : Int) (flag : Bool) :
    genRegExpMinute s e flag =
      if flag = true ∧ s > e then .error (orderingError "minute" s e)
      else .ok (fieldFragment 0 59 s e flag) := by
  cases flag <;> by_cases h : s > e <;>
    simp [genRegExpMinute, fieldFragment, genRegExpRange_eq, orderingError, h]

theorem genRegExpSecond_eq (s e : Int) (flag : Bool) :
    genRegExpSecond s e flag =
      if flag = true ∧ s > e then .error (orderingError "second" s e)
      else .ok (fieldFragment 0 59 s e flag) := by
  cases flag <;> by_cases h : s > e <;>
    simp [genRegExpSecond, fieldFragment, genRegExpRange_eq, orderingError, h]

theorem isError_ite_iff (c : Prop) [Decidable c] (msg frag : List Char) :
    isError (if c then .error msg else .ok frag) ↔ c := by
  unfold isError
  by_cases h : c <;> simp [h]

/-- C5: each of the five field compilers fails exactly when the inherited flag is
true and the start value exceeds the end value; with flag true, start 10 and end 5
it returns the field-ordering contradiction error; with flag false it never fails;
the year compiler never fails. -/
theorem field_compiler_error_iff (s e : Int) (flag : Bool) :
    (isError (genRegExpMonth s e flag) ↔ (flag = true ∧ s > e)) ∧
    (isError (genRegExpDay s e flag) ↔ (flag = true ∧ s > e)) ∧
    (isError (genRegExpHour s e flag) ↔ (flag = true ∧ s > e)) ∧
    (isError (genRegExpMinute s e flag) ↔ (flag = true ∧ s > e)) ∧
    (isError (genRegExpSecond s e flag) ↔ (flag = true ∧ s > e)) ∧
    genRegExpMonth 10 5 true
      = .error "start month (10) is greater than end month (5)".toList ∧
    genRegExpDay 10 5 true
      = .error "start day (10) is greater than end day (5)".toList ∧
    genRegExpHour 10 5 true
      = .error "start hour (10) is greater than end hour (5)".toList ∧
    genRegExpMinute 10 5 true
      = .error "start minute (10) is greater than end minute (5)".toList ∧
    genRegExpSecond 10 5 true
      = .error "start second (10) is greater than end second (5)".toList ∧
    ¬ isError (genRegExpMonth s e false) ∧
    ¬ isError (genRegExpDay s e false) ∧
    ¬ isError (genRegExpHour s e false) ∧
    ¬ isError (genRegExpMinute s e false) ∧
    ¬ isError (genRegExpSecond s e false) ∧
    ¬ isError (genRegExpYear s e) := by
  refine ⟨?_, ?_, ?_, ?_, ?_, rfl, rfl, rfl, rfl, rfl, ?_, ?_, ?_, ?_, ?_, ?_⟩
  · rw [genRegExpMonth_eq]; exact isError_ite_iff _ _ _
  · rw [genRegExpDay_eq]; exact isError_ite_iff _ _ _
  · rw [genRegExpHour_eq]; exact isError_ite_iff _ _ _
  · rw [genRegExpMinute_eq]; exact isError_ite_iff _ _ _
  · rw [genRegExpSecond_eq]; exact isError_ite_iff _ _ _
  · rw [genRegExpMonth_eq, isError_ite_iff]; simp
  · rw [genRegExpDay_eq, isError_ite_iff]; simp
  · rw [genRegExpHour_eq, isError_ite_iff]; simp
  · rw [genRegExpMinute_eq, isError_ite_iff]; simp
  · rw [genRegExpSecond_eq, isError_ite_iff]; simp
  · rw [genRegExpYear_eq]; simp [isError]

/-! ## The assembler: normal form and failure -/

theorem genRegExp_eq (s e : Time) :
    genRegExp s e =
      if s.year = e.year ∧ s.month > e.month then
        .error (orderingError "month" s.month e.month)
      else if (s.year = e.year ∧ s.month = e.month) ∧ s.day > e.day then
        .error (orderingError "day" s.day e.day)
      else if (s.year = e.year ∧ s.month = e.month ∧ s.day = e.day) ∧ s.hour > e.hour then
        .error (orderingError "hour" s.hour e.hour)
      else if (s.year = e.year ∧ s.month = e.month ∧ s.day = e.day ∧ s.hour = e.hour) ∧
          s.minute > e.minute then
        .error (orderingError "minute" s.minute e.minute)
      else if (s.year = e.year ∧ s.month = e.month ∧ s.day = e.day ∧ s.hour = e.hour ∧
          s.minute = e.minute) ∧ s.second > e.second then
        .error (orderingError "second" s.second e.second)
      else .ok (simplify (rawPattern s e)) := by
  simp only [genRegExp, genRegExpYear_eq, genRegExpMonth_eq, genRegExpDay_eq, genRegExpHour_eq,
    genRegExpMinute_eq, genRegExpSecond_eq, bind, Except.bind, pure, Except.pure,
    Bool.and_eq_true, decide_eq_true_eq]
  split_ifs <;> simp_all [rawPattern, and_assoc]

theorem contradicts_one (s e : Time) :
    contradicts s e 1 ↔ s.year = e.year ∧ s.month > e.month := by
  constructor
  · rintro ⟨h, g⟩
    exact ⟨h 0 (by norm_num), g⟩
  · rintro ⟨h, g⟩
    refine ⟨fun j hj => ?_, g⟩
    interval_cases j
    exact h

theorem contradicts_two (s e : Time) :
    contradicts s e 2 ↔ (s.year = e.year ∧ s.month = e.month) ∧ s.day > e.day := by
  constructor
  · rintro ⟨h, g⟩
    exact ⟨⟨h 0 (by norm_num), h 1 (by norm_num)⟩, g⟩
  · rintro ⟨⟨h0, h1⟩, g⟩
    refine ⟨fun j hj => ?_, g⟩
    interval_cases j
    · exact h0
    · exact h1

theorem contradicts_three (s e : Time) :
    contradicts s e 3 ↔
      (s.year = e.year ∧ s.month = e.month ∧ s.day = e.day) ∧ s.hour > e.hour := by
  constructor
  · rintro ⟨h, g⟩
    exact ⟨⟨h 0 (by norm_num), h 1 (by norm_num), h 2 (by norm_num)⟩, g⟩
  · rintro ⟨⟨h0, h1, h2⟩, g⟩
    refine ⟨fun j hj => ?_, g⟩
    interval_cases j
    · exact h0
    · exact h1
    · exact h2

theorem contradicts_four (s e : Time) :
    contradicts s e 4 ↔
      (s.year = e.year ∧ s.month = e.month ∧ s.day = e.day ∧ s.hour = e.hour) ∧
        s.minute > e.minute := by
  constructor
  · rintro ⟨h, g⟩
    exact ⟨⟨h 0 (by norm_num), h 1 (by norm_num), h 2 (by norm_num), h 3 (by norm_num)⟩, g⟩
  · rintro ⟨⟨h0, h1, h2, h3⟩, g⟩
    refine ⟨fun j hj => ?_, g⟩
    interval_cases j
    · exact h0
    · exact h1
    · exact h2
    · exact h3

theorem contradicts_five (s e : Time) :
    contradicts s e 5 ↔
      (s.year = e.year ∧ s.month = e.month ∧ s.day = e.day ∧ s.hour = e.hour ∧
        s.minute = e.minute) ∧ s.second > e.second := by
  constructor
  · rintro ⟨h, g⟩
    exact ⟨⟨h 0 (by norm_num), h 1 (by norm_num), h 2 (by norm_num), h 3 (by norm_num),
      h 4 (by norm_num)⟩, g⟩
  · rintro ⟨⟨h0, h1, h2, h3, h4⟩, g⟩
    refine ⟨fun j hj => ?_, g⟩
    interval_cases j
    · exact h0
    · exact h1
    · exact h2
    · exact h3
    · exact h4

/-- The error of `genRegExp` when the field of rank `k` contradicts the order. -/
theorem genRegExp_of_contradicts (s e : Time) (k : Nat) (h1 : 1 ≤ k) (h5 : k ≤ 5)
    (hk : contradicts s e k) :
    genRegExp s e =
      .error (orderingError (fieldName k) (fieldValue k s) (fieldValue k e)) := by
  rw [genRegExp_eq]
  interval_cases k
  · rw [contradicts_one] at hk
    simp [hk, fieldName, fieldValue]
  · rw [contradicts_two] at hk
    obtain ⟨⟨hy, hm⟩, hd⟩ := hk
    simp [hy, hm, hd, fieldName, fieldValue]
  · rw [contradicts_three] at hk
    obtain ⟨⟨hy, hm, hd⟩, hh⟩ := hk
    simp [hy, hm, hd, hh, fieldName, fieldValue]
  · rw [contradicts_four] at hk
    obtain ⟨⟨hy, hm, hd, hh⟩, hmi⟩ := hk
    simp [hy, hm, hd, hh, hmi, fieldName, fieldValue]
  · rw [contradicts_five] at hk
    obtain ⟨⟨hy, hm, hd, hh, hmi⟩, hs⟩ := hk
    simp [hy, hm, hd, hh, hmi, hs, fieldName, fieldValue]

/-- Without a contradicting field `genRegExp` returns the simplified pattern. -/
theorem genRegExp_of_no_contradiction (s e : Time)
    (h : ∀ k, 1 ≤ k → k ≤ 5 → ¬ contradicts s e k) :
    genRegExp s e = .ok (simplify (rawPattern s e)) := by
  have c1 := h 1 (by norm_num) (by norm_num)
  have c2 := h 2 (by norm_num) (by norm_num)
  have c3 := h 3 (by norm_num) (by norm_num)
  have c4 := h 4 (by norm_num) (by norm_num)
  have c5 := h 5 (by norm_num) (by norm_num)
  rw [contradicts_one] at c1
  rw [contradicts_two] at c2
  rw [contradicts_three] at c3
  rw [contradicts_four] at c4
  rw [contradicts_five] at c5
  rw [genRegExp_eq, if_neg c1, if_neg c2, if_neg c3, if_neg c4, if_neg c5]

/-- A timestamp strictly before another has no contradicting field. -/
theorem not_contradicts_of_before (s e : Time) (h : before s e) (k : Nat) (h1 : 1 ≤ k)
    (h5 : k ≤ 5) : ¬ contradicts s e k := by
  unfold before at h
  interval_cases k
  · rw [contradicts_one]; omega
  · rw [contradicts_two]; omega
  · rw [contradicts_three]; omega
  · rw [contradicts_four]; omega
  · rw [contradicts_five]; omega

theorem genRegExp_of_before (s e : Time) (h : before s e) :
    genRegExp s e = .ok (simplify (rawPattern s e)) :=
  genRegExp_of_no_contradiction s e (not_contradicts_of_before s e h)

/-- C3: for timestamps with fields in their domains and `start` strictly before
`end` as six-tuples, `genRegExp` returns a pattern and never an error. -/
theorem genRegExp_ok_of_before (s e : Time) (_hs : inDomain s) (_he : inDomain e)
    (h : before s e) :
    (∃ p, genRegExp s e = .ok p) ∧ ¬ isError (genRegExp s e) := by
  rw [genRegExp_of_before s e h]
  exact ⟨⟨_, rfl⟩, by simp [isError]⟩

theorem genRegExp_ok_of_before_witness :
    inDomain ⟨2020, 12, 31, 23, 59, 58⟩ ∧ inDomain ⟨2021, 1, 1, 0, 0, 1⟩ ∧
    before ⟨2020, 12, 31, 23, 59, 58⟩ ⟨2021, 1, 1, 0, 0, 1⟩ ∧
    ((∃ p, genRegExp ⟨2020, 12, 31, 23, 59, 58⟩ ⟨2021, 1, 1, 0, 0, 1⟩ = .ok p) ∧
      ¬ isError (genRegExp ⟨2020, 12, 31, 23, 59, 58⟩ ⟨2021, 1, 1, 0, 0, 1⟩)) :=
  ⟨by decide, by decide, by decide,
    genRegExp_ok_of_before ⟨2020, 12, 31, 23, 59, 58⟩ ⟨2021, 1, 1, 0, 0, 1⟩
      (by decide) (by decide) (by decide)⟩

/-- C4: `genRegExp` returns an error exactly when some field among month, day,
hour, minute, second has all more significant fields equal and a start value
greater than its end value; then no pattern is returned and the error is the
message of the most significant such field, naming it and its two values. -/
theorem genRegExp_error_iff (s e : Time) :
    (isError (genRegExp s e) ↔ ∃ k, 1 ≤ k ∧ k ≤ 5 ∧ contradicts s e k) ∧
    (∀ k, 1 ≤ k → k ≤ 5 → contradicts s e k →
      (∀ j, 1 ≤ j → j < k → ¬ contradicts s e j) →
      genRegExp s e =
          .error ("start ".toList ++ (fieldName k).toList ++ " (".toList ++
            fmtInt (fieldValue k s) ++ ") is greater than end ".toList ++
            (fieldName k).toList ++ " (".toList ++ fmtInt (fieldValue k e) ++ ")".toList) ∧
        ∀ p, genRegExp s e ≠ .ok p) := by
  constructor
  · constructor
    · intro herr
      by_contra hno
      have hok := genRegExp_of_no_contradiction s e
        (fun k h1 h5 hk => hno ⟨k, h1, h5, hk⟩)
      obtain ⟨msg, hmsg⟩ := herr
      rw [hok] at hmsg
      exact Except.noConfusion hmsg
    · rintro ⟨k, h1, h5, hk⟩
      exact ⟨_, genRegExp_of_contradicts s e k h1 h5 hk⟩
  · intro k h1 h5 hk _
    have := genRegExp_of_contradicts s e k h1 h5 hk
    refine ⟨this, fun p hp => ?_⟩
    rw [this] at hp
    exact Except.noConfusion hp

theorem genRegExp_error_iff_witness :
    genRegExp ⟨2020, 3, 31, 0, 0, 0⟩ ⟨2020, 3, 1, 0, 0, 0⟩ =
        .error "start day (31) is greater than end day (1)".toList ∧
      ∀ p, genRegExp ⟨2020, 3, 31, 0, 0, 0⟩ ⟨2020, 3, 1, 0, 0, 0⟩ ≠ .ok p :=
  (genRegExp_error_iff ⟨2020, 3, 31, 0, 0, 0⟩ ⟨2020, 3, 1, 0, 0, 0⟩).2 2 (by decide) (by decide)
    ((contradicts_two _ _).2 (by decide))
    (fun j h1 h2 => by
      have hj : j = 1 := by omega
      subst hj
      rw [contradicts_one]
      decide)

/-! ## The substitution pass -/

theorem simplify_nil : simplify [] = [] := by
  simp [simplify]

theorem simplify_class (rest : List Char) :
    simplify ('[' :: '0' :: '-' :: '9' :: ']' :: rest) = '\\' :: 'd' :: simplify rest := by
  simp [simplify]

theorem simplify_cons_of_ne (c : Char) (rest : List Char) (h : c ≠ '[') :
    simplify (c :: rest) = c :: simplify rest := by
  rw [simplify]
  intro r hc _
  exact h hc

theorem simplify_cons_of_no_class (c : Char) (rest : List Char)
    (h : ¬ ['0', '-', '9', ']'] <+: rest) :
    simplify (c :: rest) = c :: simplify rest := by
  rw [simplify]
  intro r _ hr
  exact h ⟨r, hr.symm⟩

/-- The head of `simplify l` is the head of `l` unless it is `[` or `\`. -/
theorem simplify_eq_cons (c : Char) (l t : List Char) (h1 : c ≠ '[') (h2 : c ≠ '\\')
    (h : simplify l = c :: t) : ∃ r, l = c :: r ∧ simplify r = t := by
  cases l with
  | nil => simp [simplify_nil] at h
  | cons a r =>
    by_cases ha : a = '['
    · subst ha
      by_cases hp : ['0', '-', '9', ']'] <+: r
      · obtain ⟨u, rfl⟩ := hp
        simp [simplify_class] at h
        exact absurd h.1.symm h2
      · rw [simplify_cons_of_no_class _ _ hp] at h
        simp at h
        exact absurd h.1.symm h1
    · rw [simplify_cons_of_ne _ _ ha] at h
      simp at h
      exact ⟨r, by rw [h.1], h.2⟩

theorem simplify_head_no_class (l : List Char) : ¬ "[0-9]".toList <+: simplify l := by
  rintro ⟨t, ht⟩
  cases l with
  | nil => simp [simplify_nil] at ht
  | cons a r =>
    by_cases ha : a = '['
    · subst ha
      by_cases hp : ['0', '-', '9', ']'] <+: r
      · obtain ⟨u, rfl⟩ := hp
        simp [simplify_class] at ht
      · rw [simplify_cons_of_no_class _ _ hp] at ht
        simp at ht
        obtain ⟨r1, rfl, h1⟩ := simplify_eq_cons '0' r _ (by decide) (by decide) ht.symm
        obtain ⟨r2, rfl, h2⟩ := simplify_eq_cons '-' r1 _ (by decide) (by decide) h1
        obtain ⟨r3, rfl, h3⟩ := simplify_eq_cons '9' r2 _ (by decide) (by decide) h2
        obtain ⟨r4, rfl, _⟩ := simplify_eq_cons ']' r3 _ (by decide) (by decide) h3
        exact hp ⟨r4, rfl⟩
    · rw [simplify_cons_of_ne _ _ ha] at ht
      simp at ht
      exact ha ht.1.symm

theorem simplify_no_class (l : List Char) : ¬ "[0-9]".toList <:+: simplify l := by
  induction l using simplify.induct with
  | case1 rest ih =>
    rw [simplify_class, List.infix_cons_iff, List.infix_cons_iff]
    rintro (h | h | h)
    · obtain ⟨t, ht⟩ := h
      simp at ht
    · obtain ⟨t, ht⟩ := h
      simp at ht
    · exact ih h
  | case2 c rest hne ih =>
    intro h
    have hs : simplify (c :: rest) = c :: simplify rest := by
      rw [simplify]
      exact hne
    rw [hs, List.infix_cons_iff] at h
    rcases h with h | h
    · rw [← hs] at h
      exact simplify_head_no_class _ h
    · exact ih h
  | case3 => simp [simplify_nil]

/-! ## The digit-range extractor: what the loops compute -/

theorem shifted_succ (v : Int) (p : Nat) : shifted v (p + 1) = Int.tdiv (shifted v p) 10 := by
  unfold shifted
  rw [Function.iterate_succ_apply']

/-- The inner loop after `n` passes. -/
theorem foldl_digitStep (n : Nat) (ds : List valueRange) (i : Int) :
    ((List.range n).foldl digitStep (ds, i)).2 = shifted i n ∧
    ∀ p, (((List.range n).foldl digitStep (ds, i)).1)[p]? =
      (ds[p]?).map (fun vr => if p < n then observe vr (loopDigit i p) else vr) := by
  induction n with
  | zero => simp [shifted]
  | succ n ih =>
    obtain ⟨ih2, ih1⟩ := ih
    rw [List.range_succ, List.foldl_append]
    simp only [List.foldl_cons, List.foldl_nil]
    constructor
    · simp only [digitStep, ih2, shifted_succ]
    · intro p
      simp only [digitStep, List.getElem?_modify, ih1 p, ih2]
      cases ds[p]? with
      | none => rfl
      | some vr =>
        simp only [Option.map_some', Functor.map, Option.map]
        by_cases hp : n = p
        · subst hp
          simp [loopDigit]
        · have : (p < n + 1) = (p < n) := by
            apply propext
            omega
          simp [hp, this]

theorem scanValue_getElem? (nd : Nat) (ds : List valueRange) (i : Int) (p : Nat) :
    (scanValue nd ds i)[p]? =
      (ds[p]?).map (fun vr => if p < nd then observe vr (loopDigit i p) else vr) :=
  (foldl_digitStep nd ds i).2 p

/-- The outer loop over the values `vs`. -/
theorem foldl_scanValue_getElem? (nd : Nat) (vs : List Int) (ds : List valueRange) (p : Nat)
    (hp : p < nd) :
    (vs.foldl (scanValue nd) ds)[p]? = (ds[p]?).map (scanDigit p vs) := by
  induction vs generalizing ds with
  | nil =>
    have e : scanDigit p [] = id := rfl
    simp [e]
  | cons v vs ih =>
    rw [List.foldl_cons, ih, scanValue_getElem?]
    cases ds[p]? with
    | none => rfl
    | some vr => simp [hp, scanDigit]

theorem foldl_digitStep_length (n : Nat) (ds : List valueRange) (i : Int) :
    ((List.range n).foldl digitStep (ds, i)).1.length = ds.length := by
  induction n with
  | zero => rfl
  | succ n ih =>
    rw [List.range_succ, List.foldl_append]
    simp only [List.foldl_cons, List.foldl_nil, digitStep, List.length_modify, ih]

theorem foldl_scanValue_length (nd : Nat) (vs : List Int) (ds : List valueRange) :
    (vs.foldl (scanValue nd) ds).length = ds.length := by
  induction vs generalizing ds with
  | nil => rfl
  | cons v vs ih =>
    rw [List.foldl_cons, ih]
    exact foldl_digitStep_length nd ds v

theorem genDigitsRange_length (lo hi : Int) (nd : Nat) :
    (genDigitsRange lo hi nd).length = nd := by
  unfold genDigitsRange
  rw [foldl_scanValue_length, List.length_replicate]

theorem genDigitsRange_getElem? (lo hi : Int) (nd p : Nat) (hp : p < nd) :
    (genDigitsRange lo hi nd)[p]? = some (scanDigit p (loopValues lo hi) newValueRange) := by
  unfold genDigitsRange
  rw [foldl_scanValue_getElem? nd _ _ p hp]
  simp [List.getElem?_replicate, hp]

theorem genDigitsRange_two (lo hi : Int) :
    genDigitsRange lo hi 2 =
      [scanDigit 0 (loopValues lo hi) newValueRange,
        scanDigit 1 (loopValues lo hi) newValueRange] := by
  apply List.ext_getElem?
  intro p
  by_cases hp : p < 2
  · rw [genDigitsRange_getElem? lo hi 2 p hp]
    interval_cases p <;> rfl
  · rw [List.getElem?_eq_none (by rw [genDigitsRange_length]; omega),
      List.getElem?_eq_none (by simp; omega)]

theorem genDigitsRange_four (lo hi : Int) :
    genDigitsRange lo hi 4 =
      [scanDigit 0 (loopValues lo hi) newValueRange,
        scanDigit 1 (loopValues lo hi) newValueRange,
        scanDigit 2 (loopValues lo hi) newValueRange,
        scanDigit 3 (loopValues lo hi) newValueRange] := by
  apply List.ext_getElem?
  intro p
  by_cases hp : p < 4
  · rw [genDigitsRange_getElem? lo hi 4 p hp]
    interval_cases p <;> rfl
  · rw [List.getElem?_eq_none (by rw [genDigitsRange_length]; omega),
      List.getElem?_eq_none (by simp; omega)]

/-! ## Scanning: minimum and maximum -/

theorem mem_loopValues (lo hi v : Int) : v ∈ loopValues lo hi ↔ lo ≤ v ∧ v ≤ hi := by
  unfold loopValues
  rw [List.mem_map]
  constructor
  · rintro ⟨k, hk, rfl⟩
    rw [List.mem_range] at hk
    omega
  · intro h
    refine ⟨(v - lo).toNat, ?_, ?_⟩
    · rw [List.mem_range]
      omega
    · omega

theorem min_le_left (a b : Int) : min a b ≤ a := by
  unfold min
  split_ifs <;> omega

theorem min_le_right (a b : Int) : min a b ≤ b := by
  unfold min
  split_ifs <;> omega

theorem min_eq_or (a b : Int) : min a b = a ∨ min a b = b := by
  unfold min
  split_ifs <;> simp

theorem le_max_left (a b : Int) : a ≤ max a b := by
  unfold max
  split_ifs <;> omega

theorem le_max_right (a b : Int) : b ≤ max a b := by
  unfold max
  split_ifs <;> omega

theorem max_eq_or (a b : Int) : max a b = a ∨ max a b = b := by
  unfold max
  split_ifs <;> simp

theorem scanDigit_min (p : Nat) (vs : List Int) (acc : valueRange) :
    (scanDigit p vs acc).min ≤ acc.min ∧
    (∀ v, v ∈ vs → (scanDigit p vs acc).min ≤ loopDigit v p) ∧
    ((scanDigit p vs acc).min = acc.min ∨
      ∃ v, v ∈ vs ∧ (scanDigit p vs acc).min = loopDigit v p) := by
  induction vs generalizing acc with
  | nil => simp [scanDigit]
  | cons a vs ih =>
    have h := ih (observe acc (loopDigit a p))
    have e : scanDigit p (a :: vs) acc = scanDigit p vs (observe acc (loopDigit a p)) := rfl
    rw [e]
    obtain ⟨h1, h2, h3⟩ := h
    have o1 : (observe acc (loopDigit a p)).min ≤ acc.min := min_le_left _ _
    have o2 : (observe acc (loopDigit a p)).min ≤ loopDigit a p := min_le_right _ _
    have o3 : (observe acc (loopDigit a p)).min = acc.min ∨
        (observe acc (loopDigit a p)).min = loopDigit a p := min_eq_or _ _
    refine ⟨le_trans h1 o1, ?_, ?_⟩
    · intro v hv
      rcases List.mem_cons.1 hv with rfl | hv
      · exact le_trans h1 o2
      · exact h2 v hv
    · rcases h3 with h3 | ⟨v, hv, h3⟩
      · rcases o3 with o3 | o3
        · exact Or.inl (h3.trans o3)
        · exact Or.inr ⟨a, List.mem_cons_self _ _, h3.trans o3⟩
      · exact Or.inr ⟨v, List.mem_cons_of_mem _ hv, h3⟩

theorem scanDigit_max (p : Nat) (vs : List Int) (acc : valueRange) :
    acc.max ≤ (scanDigit p vs acc).max ∧
    (∀ v, v ∈ vs → loopDigit v p ≤ (scanDigit p vs acc).max) ∧
    ((scanDigit p vs acc).max = acc.max ∨
      ∃ v, v ∈ vs ∧ (scanDigit p vs acc).max = loopDigit v p) := by
  induction vs generalizing acc with
  | nil => simp [scanDigit]
  | cons a vs ih =>
    have h := ih (observe acc (loopDigit a p))
    have e : scanDigit p (a :: vs) acc = scanDigit p vs (observe acc (loopDigit a p)) := rfl
    rw [e]
    obtain ⟨h1, h2, h3⟩ := h
    have o1 : acc.max ≤ (observe acc (loopDigit a p)).max := le_max_left _ _
    have o2 : loopDigit a p ≤ (observe acc (loopDigit a p)).max := le_max_right _ _
    have o3 : (observe acc (loopDigit a p)).max = acc.max ∨
        (observe acc (loopDigit a p)).max = loopDigit a p := max_eq_or _ _
    refine ⟨le_trans o1 h1, ?_, ?_⟩
    · intro v hv
      rcases List.mem_cons.1 hv with rfl | hv
      · exact le_trans o2 h1
      · exact h2 v hv
    · rcases h3 with h3 | ⟨v, hv, h3⟩
      · rcases o3 with o3 | o3
        · exact Or.inl (h3.trans o3)
        · exact Or.inr ⟨a, List.mem_cons_self _ _, h3.trans o3⟩
      · exact Or.inr ⟨v, List.mem_cons_of_mem _ hv, h3⟩

/-! ## Digits of non-negative values -/

theorem shifted_eq_of_nonneg (v : Int) (hv : 0 ≤ v) (p : Nat) : shifted v p = v / 10 ^ p := by
  induction p with
  | zero => simp [shifted]
  | succ p ih =>
    have h0 : (0 : Int) ≤ v / 10 ^ p := Int.ediv_nonneg hv (by positivity)
    rw [shifted_succ, ih, Int.tdiv_eq_ediv h0 (by norm_num), pow_succ]
    lift v to ℕ using hv
    norm_cast
    exact Nat.div_div_eq_div_mul _ _ _

theorem loopDigit_eq_of_nonneg (v : Int) (hv : 0 ≤ v) (p : Nat) : loopDigit v p = digitAt v p := by
  unfold loopDigit digitAt
  rw [shifted_eq_of_nonneg v hv p]
  exact Int.tmod_eq_emod (Int.ediv_nonneg hv (by positivity)) (by norm_num)

theorem digitAt_bounds (v : Int) (p : Nat) : 0 ≤ digitAt v p ∧ digitAt v p ≤ 9 := by
  unfold digitAt
  omega

/-- The record computed at position `p` for a non-empty range of non-negative
values: its `min` and `max` are the least and the greatest digit at that position. -/
theorem scanDigit_spec (lo hi : Int) (p : Nat) (h0 : 0 ≤ lo) (h : lo ≤ hi) :
    (∃ v, lo ≤ v ∧ v ≤ hi ∧ digitAt v p = (scanDigit p (loopValues lo hi) newValueRange).min) ∧
    (∀ v, lo ≤ v → v ≤ hi → (scanDigit p (loopValues lo hi) newValueRange).min ≤ digitAt v p) ∧
    (∃ v, lo ≤ v ∧ v ≤ hi ∧ digitAt v p = (scanDigit p (loopValues lo hi) newValueRange).max) ∧
    (∀ v, lo ≤ v → v ≤ hi →
      digitAt v p ≤ (scanDigit p (loopValues lo hi) newValueRange).max) := by
  obtain ⟨_, m2, m3⟩ := scanDigit_min p (loopValues lo hi) newValueRange
  obtain ⟨_, x2, x3⟩ := scanDigit_max p (loopValues lo hi) newValueRange
  have hlo : lo ∈ loopValues lo hi := (mem_loopValues lo hi lo).2 ⟨le_refl _, h⟩
  have blo := digitAt_bounds lo p
  have elo := loopDigit_eq_of_nonneg lo h0 p
  refine ⟨?_, ?_, ?_, ?_⟩
  · rcases m3 with m3 | ⟨v, hv, m3⟩
    · have := m2 lo hlo
      rw [m3, elo] at this
      have hs : newValueRange.min = 2147483647 := rfl
      omega
    · rw [mem_loopValues] at hv
      exact ⟨v, hv.1, hv.2, by rw [m3, loopDigit_eq_of_nonneg v (by omega) p]⟩
  · intro v h1 h2
    rw [← loopDigit_eq_of_nonneg v (by omega) p]
    exact m2 v ((mem_loopValues lo hi v).2 ⟨h1, h2⟩)
  · rcases x3 with x3 | ⟨v, hv, x3⟩
    · have := x2 lo hlo
      rw [x3, elo] at this
      have hs : newValueRange.max = -2147483648 := rfl
      omega
    · rw [mem_loopValues] at hv
      exact ⟨v, hv.1, hv.2, by rw [x3, loopDigit_eq_of_nonneg v (by omega) p]⟩
  · intro v h1 h2
    rw [← loopDigit_eq_of_nonneg v (by omega) p]
    exact x2 v ((mem_loopValues lo hi v).2 ⟨h1, h2⟩)

/-- The pattern returned by a successful `genRegExp` is `simplify` of the raw text. -/
theorem genRegExp_ok_eq (s e : Time) (p : List Char) (h : genRegExp s e = .ok p) :
    p = simplify (rawPattern s e) := by
  rw [genRegExp_eq] at h
  split_ifs at h
  exact (Except.ok.inj h).symm

/-- C7: `simplify s` never contains the substring `[0-9]`, so no pattern returned
by `genRegExp` contains it. -/
theorem simplify_no_full_class :
    (∀ s : List Char, ¬ "[0-9]".toList <:+: simplify s) ∧
    (∀ (startTime endTime : Time) (p : List Char),
      genRegExp startTime endTime = .ok p → ¬ "[0-9]".toList <:+: p) := by
  refine ⟨simplify_no_class, fun s e p h => ?_⟩
  rw [genRegExp_ok_eq s e p h]
  exact simplify_no_class _

theorem simplify_no_full_class_witness :
    ¬ "[0-9]".toList <:+: "2020-05-01 00:00:0\\d".toList :=
  simplify_no_full_class.2 ⟨2020, 5, 1, 0, 0, 0⟩ ⟨2020, 5, 1, 0, 0, 9⟩ _ rfl

/-! ## Rendering: the fragment as a sequence of atoms -/

theorem renderStep_eq (regexp : List Char) (vr : valueRange) :
    renderStep regexp vr = atom vr ++ regexp := by
  unfold atom renderStep
  split_ifs <;> simp

theorem render_two (r0 r1 : valueRange) : render [r0, r1] = atom r1 ++ atom r0 := by
  simp [render, renderStep_eq]

theorem render_four (r0 r1 r2 r3 : valueRange) :
    render [r0, r1, r2, r3] = atom r3 ++ (atom r2 ++ (atom r1 ++ atom r0)) := by
  simp [render, renderStep_eq]

theorem mergeRanges_two (a0 a1 b0 b1 : valueRange) :
    mergeRanges [a0, a1] [b0, b1] = [merge a0 b0, merge a1 b1] := rfl

theorem render_year (s e : Int) :
    render (genDigitsRange s e 4) =
      atom (yearBox s e 3) ++ (atom (yearBox s e 2) ++ (atom (yearBox s e 1) ++
        atom (yearBox s e 0))) := by
  rw [genDigitsRange_four, render_four]
  rfl

theorem fieldFragment_eq (lo hi s e : Int) (flag : Bool) :
    fieldFragment lo hi s e flag =
      atom (fieldBox lo hi s e flag 1) ++ atom (fieldBox lo hi s e flag 0) := by
  cases flag
  · simp only [fieldFragment, fieldBox, genDigitsRange_two, mergeRanges_two, render_two]
    rfl
  · simp only [fieldFragment, fieldBox, genDigitsRange_two, render_two]
    rfl

theorem fmtInt_digit (d : Int) (h0 : 0 ≤ d) (h9 : d ≤ 9) : fmtInt d = [digitChr d] := by
  interval_cases d <;> rfl

theorem digitChr_le (a b : Int) (ha0 : 0 ≤ a) (ha : a ≤ 9) (hb0 : 0 ≤ b) (hb : b ≤ 9) :
    digitChr a ≤ digitChr b ↔ a ≤ b := by
  interval_cases a <;> interval_cases b <;> decide

theorem digitChr_inj (a b : Int) (ha0 : 0 ≤ a) (ha : a ≤ 9) (hb0 : 0 ≤ b) (hb : b ≤ 9)
    (h : digitChr a = digitChr b) : a = b := by
  have h1 := (digitChr_le a b ha0 ha hb0 hb).1 (by rw [h])
  have h2 := (digitChr_le b a hb0 hb ha0 ha).1 (by rw [h])
  omega

theorem digitChr_isDigit (a : Int) (ha0 : 0 ≤ a) (ha : a ≤ 9) : (digitChr a).isDigit = true := by
  interval_cases a <;> decide

theorem digitChr_ne_bracket (a : Int) (ha0 : 0 ≤ a) (ha : a ≤ 9) : digitChr a ≠ '[' := by
  interval_cases a <;> decide

theorem digitChr_ne_backslash (a : Int) (ha0 : 0 ≤ a) (ha : a ≤ 9) : digitChr a ≠ '\\' := by
  interval_cases a <;> decide

theorem atom_of_valid (vr : valueRange) (h : valid vr) :
    atom vr = if vr.max = vr.min then [digitChr vr.max]
      else ['[', digitChr vr.min, '-', digitChr vr.max, ']'] := by
  obtain ⟨h0, h1, h2⟩ := h
  unfold atom renderStep
  rw [fmtInt_digit vr.max (by omega) h2, fmtInt_digit vr.min h0 (by omega)]
  split_ifs <;> rfl

/-- The substitution pass works atom by atom. -/
theorem simplify_atom_append (vr : valueRange) (rest : List Char) (h : valid vr) :
    simplify (atom vr ++ rest) = simplifiedAtom vr ++ simplify rest := by
  rw [atom_of_valid vr h]
  obtain ⟨h0, h1, h2⟩ := h
  unfold simplifiedAtom
  by_cases he : vr.max = vr.min
  · rw [if_pos he, if_pos he]
    exact simplify_cons_of_ne _ _ (digitChr_ne_bracket _ (by omega) h2)
  · rw [if_neg he, if_neg he]
    by_cases hf : vr.min = 0 ∧ vr.max = 9
    · rw [if_pos hf, hf.1, hf.2]
      exact simplify_class rest
    · rw [if_neg hf]
      have hp : ¬ ['0', '-', '9', ']'] <+:
          (digitChr vr.min :: '-' :: digitChr vr.max :: ']' :: rest) := by
        rintro ⟨t, ht⟩
        simp only [List.cons_append, List.nil_append, List.cons.injEq] at ht
        apply hf
        exact ⟨digitChr_inj vr.min 0 h0 (by omega) (by norm_num) (by norm_num) ht.1.symm,
          digitChr_inj vr.max 9 (by omega) h2 (by norm_num) (by norm_num) ht.2.2.1.symm⟩
      show simplify ('[' :: digitChr vr.min :: '-' :: digitChr vr.max :: ']' :: rest) = _
      rw [simplify_cons_of_no_class _ _ hp,
        simplify_cons_of_ne _ _ (digitChr_ne_bracket _ h0 (by omega)),
        simplify_cons_of_ne _ _ (by decide),
        simplify_cons_of_ne _ _ (digitChr_ne_bracket _ (by omega) h2),
        simplify_cons_of_ne _ _ (by decide)]
      rfl

/-! ## Matching -/

theorem reMatch_digit (p s : List Char) (c : Char) :
    reMatch ('\\' :: 'd' :: p) (c :: s) = (c.isDigit && reMatch p s) := by
  simp [reMatch]

theorem reMatch_class (a b : Char) (p s : List Char) (c : Char) :
    reMatch ('[' :: a :: '-' :: b :: ']' :: p) (c :: s)
      = ((decide (a ≤ c) && decide (c ≤ b)) && reMatch p s) := by
  rw [reMatch]

theorem reMatch_lit (x : Char) (p s : List Char) (c : Char) (h1 : x ≠ '\\') (h2 : x ≠ '[') :
    reMatch (x :: p) (c :: s) = ((x == c) && reMatch p s) := by
  rw [reMatch]
  · intro p' hx _
    exact h1 hx
  · intro a b p' hx _
    exact h2 hx

/-- A simplified atom accepts the digit `k` exactly when `k` lies in the record. -/
theorem reMatch_simplifiedAtom (vr : valueRange) (h : valid vr) (k : Int) (k0 : 0 ≤ k)
    (k9 : k ≤ 9) (p s : List Char) :
    reMatch (simplifiedAtom vr ++ p) (digitChr k :: s) =
      (decide (vr.min ≤ k ∧ k ≤ vr.max) && reMatch p s) := by
  obtain ⟨h0, h1, h2⟩ := h
  unfold simplifiedAtom
  by_cases he : vr.max = vr.min
  · rw [if_pos he]
    show reMatch (digitChr vr.max :: p) _ = _
    rw [reMatch_lit _ _ _ _ (digitChr_ne_backslash _ (by omega) h2)
      (digitChr_ne_bracket _ (by omega) h2)]
    congr 1
    by_cases hk : vr.max = k
    · subst hk
      simp [he]
    · have hne : digitChr vr.max ≠ digitChr k :=
        fun hc => hk (digitChr_inj _ _ (by omega) h2 k0 k9 hc)
      have hd : ¬ (vr.min ≤ k ∧ k ≤ vr.max) := by omega
      simp [hne, hd]
  · rw [if_neg he]
    by_cases hf : vr.min = 0 ∧ vr.max = 9
    · rw [if_pos hf]
      show reMatch ('\\' :: 'd' :: p) _ = _
      rw [reMatch_digit, digitChr_isDigit k k0 k9]
      have hd : vr.min ≤ k ∧ k ≤ vr.max := by omega
      simp [hd]
    · rw [if_neg hf]
      show reMatch ('[' :: digitChr vr.min :: '-' :: digitChr vr.max :: ']' :: p) _ = _
      rw [reMatch_class]
      congr 1
      have e1 := digitChr_le vr.min k h0 (by omega) k0 k9
      have e2 := digitChr_le k vr.max k0 k9 (by omega) h2
      by_cases c1 : vr.min ≤ k <;> by_cases c2 : k ≤ vr.max <;> simp [c1, c2, e1, e2]

/-! ## The records of the six fields -/

theorem scanDigit_valid (lo hi : Int) (p : Nat) (h0 : 0 ≤ lo) (h : lo ≤ hi) :
    valid (scanDigit p (loopValues lo hi) newValueRange) := by
  obtain ⟨⟨v, _, _, hv⟩, _, ⟨u, u1, u2, hu⟩, h4⟩ := scanDigit_spec lo hi p h0 h
  have bv := digitAt_bounds v p
  have bu := digitAt_bounds u p
  have := h4 v (by omega) (by omega)
  unfold valid
  omega

theorem scanDigit_covers (lo hi : Int) (p : Nat) (v : Int) (h0 : 0 ≤ lo) (h1 : lo ≤ v)
    (h2 : v ≤ hi) : inBox (scanDigit p (loopValues lo hi) newValueRange) (digitAt v p) := by
  obtain ⟨_, h3, _, h4⟩ := scanDigit_spec lo hi p h0 (by omega)
  exact ⟨h3 v h1 h2, h4 v h1 h2⟩

theorem merge_valid (a b : valueRange) (ha : valid a) (hb : valid b) : valid (merge a b) := by
  unfold valid at *
  have h1 := min_le_left a.min b.min
  have h2 := min_eq_or a.min b.min
  have h3 := le_max_left a.max b.max
  have h4 := max_eq_or a.max b.max
  show 0 ≤ min a.min b.min ∧ min a.min b.min ≤ max a.max b.max ∧ max a.max b.max ≤ 9
  omega

theorem inBox_merge_left (a b : valueRange) (d : Int) (h : inBox a d) : inBox (merge a b) d := by
  unfold inBox at *
  have h1 := min_le_left a.min b.min
  have h3 := le_max_left a.max b.max
  show min a.min b.min ≤ d ∧ d ≤ max a.max b.max
  omega

theorem inBox_merge_right (a b : valueRange) (d : Int) (h : inBox b d) : inBox (merge a b) d := by
  unfold inBox at *
  have h1 := min_le_right a.min b.min
  have h3 := le_max_right a.max b.max
  show min a.min b.min ≤ d ∧ d ≤ max a.max b.max
  omega

theorem fieldBox_valid (lo hi s e : Int) (flag : Bool) (p : Nat) (hlo : 0 ≤ lo)
    (hs : lo ≤ s ∧ s ≤ hi) (he : lo ≤ e ∧ e ≤ hi) (ht : flag = true → s ≤ e) :
    valid (fieldBox lo hi s e flag p) := by
  cases flag
  · exact merge_valid _ _ (scanDigit_valid s hi p (by omega) hs.2)
      (scanDigit_valid lo e p hlo he.1)
  · exact scanDigit_valid s e p (by omega) (ht rfl)

theorem fieldBox_covers_start (lo hi s e : Int) (flag : Bool) (p : Nat) (hlo : 0 ≤ lo)
    (hs : lo ≤ s ∧ s ≤ hi) (ht : flag = true → s ≤ e) :
    inBox (fieldBox lo hi s e flag p) (digitAt s p) := by
  cases flag
  · exact inBox_merge_left _ _ _ (scanDigit_covers s hi p s (by omega) (le_refl _) hs.2)
  · exact scanDigit_covers s e p s (by omega) (le_refl _) (ht rfl)

theorem fieldBox_covers_end (lo hi s e : Int) (flag : Bool) (p : Nat) (hlo : 0 ≤ lo)
    (hs : lo ≤ s ∧ s ≤ hi) (he : lo ≤ e ∧ e ≤ hi) (ht : flag = true → s ≤ e) :
    inBox (fieldBox lo hi s e flag p) (digitAt e p) := by
  cases flag
  · exact inBox_merge_right _ _ _ (scanDigit_covers lo e p e hlo he.1 (le_refl _))
  · exact scanDigit_covers s e p e (by omega) (ht rfl) (le_refl _)

theorem inDomain_field (t : Time) (h : inDomain t) (k : Nat) (hk : k ≤ 5) :
    fieldMin k ≤ fieldValue k t ∧ fieldValue k t ≤ fieldMax k := by
  unfold inDomain at h
  interval_cases k <;> simp only [fieldMin, fieldMax, fieldValue] <;> omega

theorem fieldMin_nonneg (k : Nat) : 0 ≤ fieldMin k := by
  unfold fieldMin
  split <;> norm_num

theorem tight_iff (s e : Time) (k : Nat) :
    tight s e k = true ↔ ∀ j, j < k → fieldValue j s = fieldValue j e := by
  induction k with
  | zero => simp [tight]
  | succ k ih =>
    simp only [tight, Bool.and_eq_true, decide_eq_true_eq, ih]
    constructor
    · rintro ⟨h1, h2⟩ j hj
      rcases Nat.lt_succ_iff_lt_or_eq.1 hj with h | rfl
      · exact h1 j h
      · exact h2
    · intro h
      exact ⟨fun j hj => h j (by omega), h k (by omega)⟩

/-- Under the precondition a field whose more significant fields are all equal
is itself in order. -/
theorem le_of_tight (s e : Time) (hb : before s e) (k : Nat) (hk : k ≤ 5)
    (ht : tight s e k = true) : fieldValue k s ≤ fieldValue k e := by
  rw [tight_iff] at ht
  unfold before at hb
  interval_cases k
  · simp only [fieldValue]
    omega
  · have h0 := ht 0 (by norm_num)
    simp only [fieldValue] at *
    omega
  · have h0 := ht 0 (by norm_num)
    have h1 := ht 1 (by norm_num)
    simp only [fieldValue] at *
    omega
  · have h0 := ht 0 (by norm_num)
    have h1 := ht 1 (by norm_num)
    have h2 := ht 2 (by norm_num)
    simp only [fieldValue] at *
    omega
  · have h0 := ht 0 (by norm_num)
    have h1 := ht 1 (by norm_num)
    have h2 := ht 2 (by norm_num)
    have h3 := ht 3 (by norm_num)
    simp only [fieldValue] at *
    omega
  · have h0 := ht 0 (by norm_num)
    have h1 := ht 1 (by norm_num)
    have h2 := ht 2 (by norm_num)
    have h3 := ht 3 (by norm_num)
    have h4 := ht 4 (by norm_num)
    simp only [fieldValue] at *
    omega

theorem box_valid (s e : Time) (hs : inDomain s) (he : inDomain e) (hb : before s e)
    (k p : Nat) (hk : k ≤ 5) : valid (box s e k p) := by
  cases k with
  | zero =>
    have h := le_of_tight s e hb 0 (by norm_num) rfl
    have d := inDomain_field s hs 0 (by norm_num)
    simp only [fieldValue, fieldMin] at h d
    exact scanDigit_valid _ _ p d.1 h
  | succ k =>
    exact fieldBox_valid _ _ _ _ _ p (fieldMin_nonneg _) (inDomain_field s hs _ hk)
      (inDomain_field e he _ hk) (le_of_tight s e hb _ hk)

theorem box_covers_start (s e : Time) (hs : inDomain s) (hb : before s e)
    (k p : Nat) (hk : k ≤ 5) : inBox (box s e k p) (digitAt (fieldValue k s) p) := by
  cases k with
  | zero =>
    have h := le_of_tight s e hb 0 (by norm_num) rfl
    have d := inDomain_field s hs 0 (by norm_num)
    simp only [fieldValue, fieldMin] at h d
    exact scanDigit_covers _ _ p _ d.1 (le_refl _) h
  | succ k =>
    exact fieldBox_covers_start _ _ _ _ _ p (fieldMin_nonneg _) (inDomain_field s hs _ hk)
      (le_of_tight s e hb _ hk)

theorem box_covers_end (s e : Time) (hs : inDomain s) (he : inDomain e) (hb : before s e)
    (k p : Nat) (hk : k ≤ 5) : inBox (box s e k p) (digitAt (fieldValue k e) p) := by
  cases k with
  | zero =>
    have h := le_of_tight s e hb 0 (by norm_num) rfl
    have d := inDomain_field s hs 0 (by norm_num)
    simp only [fieldValue, fieldMin] at h d
    exact scanDigit_covers _ _ p _ d.1 h (le_refl _)
  | succ k =>
    exact fieldBox_covers_end _ _ _ _ _ p (fieldMin_nonneg _) (inDomain_field s hs _ hk)
      (inDomain_field e he _ hk) (le_of_tight s e hb _ hk)

/-! ## The assembled pattern -/

theorem rawPattern_eq (s e : Time) :
    rawPattern s e =
      atom (box s e 0 3) ++ (atom (box s e 0 2) ++ (atom (box s e 0 1) ++
        (atom (box s e 0 0) ++ '-' ::
        (atom (box s e 1 1) ++ (atom (box s e 1 0) ++ '-' ::
        (atom (box s e 2 1) ++ (atom (box s e 2 0) ++ ' ' ::
        (atom (box s e 3 1) ++ (atom (box s e 3 0) ++ ':' ::
        (atom (box s e 4 1) ++ (atom (box s e 4 0) ++ ':' ::
        (atom (box s e 5 1) ++ (atom (box s e 5 0) ++ []))))))))))))) := by
  unfold rawPattern
  rw [render_year]
  simp only [fieldFragment_eq, box, tight, fieldValue, fieldMin, fieldMax, Bool.true_and,
    List.append_assoc, String.toList, List.cons_append, List.nil_append, List.append_nil]

/-- The substitution pass on the assembled text, when every record is valid. -/
theorem simplify_rawPattern (s e : Time) (hv : ∀ k p, k ≤ 5 → valid (box s e k p)) :
    simplify (rawPattern s e) = assemble (box s e) := by
  rw [rawPattern_eq]
  unfold assemble layoutOf
  rw [simplify_atom_append _ _ (hv 0 3 (by norm_num)),
    simplify_atom_append _ _ (hv 0 2 (by norm_num)),
    simplify_atom_append _ _ (hv 0 1 (by norm_num)),
    simplify_atom_append _ _ (hv 0 0 (by norm_num)),
    simplify_cons_of_ne _ _ (by decide),
    simplify_atom_append _ _ (hv 1 1 (by norm_num)),
    simplify_atom_append _ _ (hv 1 0 (by norm_num)),
    simplify_cons_of_ne _ _ (by decide),
    simplify_atom_append _ _ (hv 2 1 (by norm_num)),
    simplify_atom_append _ _ (hv 2 0 (by norm_num)),
    simplify_cons_of_ne _ _ (by decide),
    simplify_atom_append _ _ (hv 3 1 (by norm_num)),
    simplify_atom_append _ _ (hv 3 0 (by norm_num)),
    simplify_cons_of_ne _ _ (by decide),
    simplify_atom_append _ _ (hv 4 1 (by norm_num)),
    simplify_atom_append _ _ (hv 4 0 (by norm_num)),
    simplify_cons_of_ne _ _ (by decide),
    simplify_atom_append _ _ (hv 5 1 (by norm_num)),
    simplify_atom_append _ _ (hv 5 0 (by norm_num)),
    simplify_nil, List.append_nil]

theorem formatTime_eq (t : Time) :
    formatTime t =
      digitChr (digitAt (fieldValue 0 t) 3) :: digitChr (digitAt (fieldValue 0 t) 2) ::
      digitChr (digitAt (fieldValue 0 t) 1) :: digitChr (digitAt (fieldValue 0 t) 0) :: '-' ::
      digitChr (digitAt (fieldValue 1 t) 1) :: digitChr (digitAt (fieldValue 1 t) 0) :: '-' ::
      digitChr (digitAt (fieldValue 2 t) 1) :: digitChr (digitAt (fieldValue 2 t) 0) :: ' ' ::
      digitChr (digitAt (fieldValue 3 t) 1) :: digitChr (digitAt (fieldValue 3 t) 0) :: ':' ::
      digitChr (digitAt (fieldValue 4 t) 1) :: digitChr (digitAt (fieldValue 4 t) 0) :: ':' ::
      digitChr (digitAt (fieldValue 5 t) 1) :: digitChr (digitAt (fieldValue 5 t) 0) :: [] := rfl

theorem reMatch_sep (x : Char) (p s : List Char) (h1 : x ≠ '\\') (h2 : x ≠ '[') :
    reMatch (x :: p) (x :: s) = reMatch p s := by
  rw [reMatch_lit x p s x h1 h2]
  simp

theorem reMatch_last (vr : valueRange) (h : valid vr) (k : Int) (k0 : 0 ≤ k) (k9 : k ≤ 9) :
    reMatch (simplifiedAtom vr) [digitChr k] = decide (vr.min ≤ k ∧ k ≤ vr.max) := by
  have := reMatch_simplifiedAtom vr h k k0 k9 [] []
  rw [List.append_nil] at this
  rw [this]
  simp [reMatch]

/-- The assembled pattern accepts the text of a timestamp exactly when every
digit of the timestamp lies in the record of its position. -/
theorem reMatch_assemble (b : Nat → Nat → valueRange) (hv : ∀ k p, k ≤ 5 → valid (b k p))
    (t : Time) :
    reMatch (assemble b) (formatTime t) = true ↔
      ∀ k p, k ≤ 5 → p < fieldWidth k → inBox (b k p) (digitAt (fieldValue k t) p) := by
  have d := fun k p => digitAt_bounds (fieldValue k t) p
  rw [formatTime_eq]
  unfold assemble layoutOf
  rw [reMatch_simplifiedAtom _ (hv 0 3 (by norm_num)) _ (d 0 3).1 (d 0 3).2,
    reMatch_simplifiedAtom _ (hv 0 2 (by norm_num)) _ (d 0 2).1 (d 0 2).2,
    reMatch_simplifiedAtom _ (hv 0 1 (by norm_num)) _ (d 0 1).1 (d 0 1).2,
    reMatch_simplifiedAtom _ (hv 0 0 (by norm_num)) _ (d 0 0).1 (d 0 0).2,
    reMatch_sep _ _ _ (by decide) (by decide),
    reMatch_simplifiedAtom _ (hv 1 1 (by norm_num)) _ (d 1 1).1 (d 1 1).2,
    reMatch_simplifiedAtom _ (hv 1 0 (by norm_num)) _ (d 1 0).1 (d 1 0).2,
    reMatch_sep _ _ _ (by decide) (by decide),
    reMatch_simplifiedAtom _ (hv 2 1 (by norm_num)) _ (d 2 1).1 (d 2 1).2,
    reMatch_simplifiedAtom _ (hv 2 0 (by norm_num)) _ (d 2 0).1 (d 2 0).2,
    reMatch_sep _ _ _ (by decide) (by decide),
    reMatch_simplifiedAtom _ (hv 3 1 (by norm_num)) _ (d 3 1).1 (d 3 1).2,
    reMatch_simplifiedAtom _ (hv 3 0 (by norm_num)) _ (d 3 0).1 (d 3 0).2,
    reMatch_sep _ _ _ (by decide) (by decide),
    reMatch_simplifiedAtom _ (hv 4 1 (by norm_num)) _ (d 4 1).1 (d 4 1).2,
    reMatch_simplifiedAtom _ (hv 4 0 (by norm_num)) _ (d 4 0).1 (d 4 0).2,
    reMatch_sep _ _ _ (by decide) (by decide),
    reMatch_simplifiedAtom _ (hv 5 1 (by norm_num)) _ (d 5 1).1 (d 5 1).2,
    reMatch_last _ (hv 5 0 (by norm_num)) _ (d 5 0).1 (d 5 0).2]
  simp only [Bool.and_eq_true, decide_eq_true_eq]
  constructor
  · intro h k p hk hp
    unfold inBox
    interval_cases k <;> simp only [fieldWidth] at hp <;> interval_cases p <;> tauto
  · intro h
    have g := fun k p (hk : k ≤ 5) (hp : p < fieldWidth k) => h k p hk hp
    unfold inBox at g
    exact ⟨g 0 3 (by norm_num) (by decide), g 0 2 (by norm_num) (by decide),
      g 0 1 (by norm_num) (by decide), g 0 0 (by norm_num) (by decide),
      g 1 1 (by norm_num) (by decide), g 1 0 (by norm_num) (by decide),
      g 2 1 (by norm_num) (by decide), g 2 0 (by norm_num) (by decide),
      g 3 1 (by norm_num) (by decide), g 3 0 (by norm_num) (by decide),
      g 4 1 (by norm_num) (by decide), g 4 0 (by norm_num) (by decide),
      g 5 1 (by norm_num) (by decide), g 5 0 (by norm_num) (by decide)⟩

/-! ## Fields compiled by the broadened branch with equal values -/

theorem month_full (v : Int) (h1 : 1 ≤ v) (h2 : v ≤ 12) :
    fieldFragment 1 12 v v false = "[0-1][0-9]".toList := by
  interval_cases v <;> rfl

set_option maxRecDepth 100000 in
theorem day_full (v : Int) (h1 : 1 ≤ v) (h2 : v ≤ 31) :
    fieldFragment 1 31 v v false = "[0-3][0-9]".toList := by
  interval_cases v <;> rfl

set_option maxRecDepth 100000 in
theorem hour_full (v : Int) (h1 : 0 ≤ v) (h2 : v ≤ 23) :
    fieldFragment 0 23 v v false = "[0-2][0-9]".toList := by
  interval_cases v <;> rfl

set_option maxRecDepth 100000 in
theorem minute_full (v : Int) (h1 : 0 ≤ v) (h2 : v ≤ 59) :
    fieldFragment 0 59 v v false = "[0-5][0-9]".toList := by
  interval_cases v <;> rfl

/-! ## Properties of the returned pattern -/

/-- The pattern returned under the precondition. -/
theorem genRegExp_eq_assemble (s e : Time) (hs : inDomain s) (he : inDomain e)
    (hb : before s e) : genRegExp s e = .ok (assemble (box s e)) := by
  rw [genRegExp_of_before s e hb,
    simplify_rawPattern s e (fun k p hk => box_valid s e hs he hb k p hk)]

/-- C1: for timestamps with fields in their domains and `start` strictly before
`end`, `genRegExp` succeeds and the returned pattern matches the 19-character
text `YYYY-MM-DD HH:MM:SS` of `start` and that of `end`. -/
theorem genRegExp_matches_endpoints (s e : Time) (hs : inDomain s) (he : inDomain e)
    (hb : before s e) :
    ∃ p, genRegExp s e = .ok p ∧
      (formatTime s).length = 19 ∧ reMatch p (formatTime s) = true ∧
      (formatTime e).length = 19 ∧ reMatch p (formatTime e) = true := by
  refine ⟨_, genRegExp_eq_assemble s e hs he hb, rfl, ?_, rfl, ?_⟩
  · rw [reMatch_assemble _ (fun k p hk => box_valid s e hs he hb k p hk)]
    exact fun k p hk _ => box_covers_start s e hs hb k p hk
  · rw [reMatch_assemble _ (fun k p hk => box_valid s e hs he hb k p hk)]
    exact fun k p hk _ => box_covers_end s e hs he hb k p hk

theorem genRegExp_matches_endpoints_witness :
    ∃ p, genRegExp ⟨2020, 12, 31, 23, 59, 58⟩ ⟨2021, 1, 1, 0, 0, 1⟩ = .ok p ∧
      (formatTime ⟨2020, 12, 31, 23, 59, 58⟩).length = 19 ∧
      reMatch p (formatTime ⟨2020, 12, 31, 23, 59, 58⟩) = true ∧
      (formatTime ⟨2021, 1, 1, 0, 0, 1⟩).length = 19 ∧
      reMatch p (formatTime ⟨2021, 1, 1, 0, 0, 1⟩) = true :=
  genRegExp_matches_endpoints ⟨2020, 12, 31, 23, 59, 58⟩ ⟨2021, 1, 1, 0, 0, 1⟩
    (by decide) (by decide) (by decide)

set_option maxRecDepth 100000 in
/-- C2: the claim that the pattern matches every timestamp of the interval fails
on the code: for 2020-01-31 00:00:00 .. 2020-03-01 00:00:00 the pattern is
`2020-0[1-3]-[0-3]1 [0-2]\d:[0-5]\d:[0-5]\d`, which rejects 2020-02-15 00:00:00,
a timestamp with fields in their domains lying between the two. -/
theorem genRegExp_misses_inner_timestamp :
    inDomain ⟨2020, 1, 31, 0, 0, 0⟩ ∧ inDomain ⟨2020, 3, 1, 0, 0, 0⟩ ∧
    inDomain ⟨2020, 2, 15, 0, 0, 0⟩ ∧
    before ⟨2020, 1, 31, 0, 0, 0⟩ ⟨2020, 3, 1, 0, 0, 0⟩ ∧
    before ⟨2020, 1, 31, 0, 0, 0⟩ ⟨2020, 2, 15, 0, 0, 0⟩ ∧
    before ⟨2020, 2, 15, 0, 0, 0⟩ ⟨2020, 3, 1, 0, 0, 0⟩ ∧
    genRegExp ⟨2020, 1, 31, 0, 0, 0⟩ ⟨2020, 3, 1, 0, 0, 0⟩ =
      .ok "2020-0[1-3]-[0-3]1 [0-2]\\d:[0-5]\\d:[0-5]\\d".toList ∧
    formatTime ⟨2020, 2, 15, 0, 0, 0⟩ = "2020-02-15 00:00:00".toList ∧
    reMatch "2020-0[1-3]-[0-3]1 [0-2]\\d:[0-5]\\d:[0-5]\\d".toList
      (formatTime ⟨2020, 2, 15, 0, 0, 0⟩) = false := by
  refine ⟨by decide, by decide, by decide, by decide, by decide, by decide, ?_, ?_, ?_⟩
  · rfl
  · rfl
  · decide

theorem digitChr_lt (a b : Int) (ha0 : 0 ≤ a) (ha : a ≤ 9) (hb0 : 0 ≤ b) (hb : b ≤ 9)
    (h : a < b) : digitChr a < digitChr b := by
  interval_cases a <;> interval_cases b <;> first | omega | decide

theorem isAtomText_simplifiedAtom (vr : valueRange) (h : valid vr) :
    isAtomText (simplifiedAtom vr) := by
  obtain ⟨h0, h1, h2⟩ := h
  unfold simplifiedAtom isAtomText
  by_cases he : vr.max = vr.min
  · rw [if_pos he]
    exact Or.inl ⟨_, digitChr_isDigit _ (by omega) h2, rfl⟩
  · rw [if_neg he]
    by_cases hf : vr.min = 0 ∧ vr.max = 9
    · rw [if_pos hf]
      exact Or.inr (Or.inl rfl)
    · rw [if_neg hf]
      exact Or.inr (Or.inr ⟨_, _, digitChr_isDigit _ h0 (by omega),
        digitChr_isDigit _ (by omega) h2,
        digitChr_lt _ _ h0 (by omega) (by omega) h2 (by omega), rfl⟩)

/-- C8: for timestamps with fields in their domains and `start` strictly before
`end`, the returned pattern has the shape `A4-A2-A2 A2:A2:A2` in which every atom
is a literal digit, the token `\d`, or a class `[a-b]` of digits with `a < b`. -/
theorem genRegExp_shape (s e : Time) (hs : inDomain s) (he : inDomain e) (hb : before s e) :
    ∃ a : Nat → Nat → List Char,
      (∀ k p, k ≤ 5 → p < fieldWidth k → isAtomText (a k p)) ∧
      genRegExp s e = .ok
        (a 0 3 ++ a 0 2 ++ a 0 1 ++ a 0 0 ++ "-".toList ++ a 1 1 ++ a 1 0 ++ "-".toList ++
          a 2 1 ++ a 2 0 ++ " ".toList ++ a 3 1 ++ a 3 0 ++ ":".toList ++
          a 4 1 ++ a 4 0 ++ ":".toList ++ a 5 1 ++ a 5 0) := by
  refine ⟨fun k p => simplifiedAtom (box s e k p),
    fun k p hk _ => isAtomText_simplifiedAtom _ (box_valid s e hs he hb k p hk), ?_⟩
  rw [genRegExp_eq_assemble s e hs he hb]
  simp [assemble, layoutOf]

theorem genRegExp_shape_witness :
    ∃ a : Nat → Nat → List Char,
      (∀ k p, k ≤ 5 → p < fieldWidth k → isAtomText (a k p)) ∧
      genRegExp ⟨2020, 12, 31, 23, 59, 58⟩ ⟨2021, 1, 1, 0, 0, 1⟩ = .ok
        (a 0 3 ++ a 0 2 ++ a 0 1 ++ a 0 0 ++ "-".toList ++ a 1 1 ++ a 1 0 ++ "-".toList ++
          a 2 1 ++ a 2 0 ++ " ".toList ++ a 3 1 ++ a 3 0 ++ ":".toList ++
          a 4 1 ++ a 4 0 ++ ":".toList ++ a 5 1 ++ a 5 0) :=
  genRegExp_shape ⟨2020, 12, 31, 23, 59, 58⟩ ⟨2021, 1, 1, 0, 0, 1⟩
    (by decide) (by decide) (by decide)

/-! ## Fields pinned equal -/

theorem loopValues_self (v : Int) : loopValues v v = [v] := by
  simp [loopValues, List.range_succ]

theorem scanDigit_self (v : Int) (p : Nat) (hv : 0 ≤ v) :
    scanDigit p (loopValues v v) newValueRange =
      { max := digitAt v p, min := digitAt v p } := by
  obtain ⟨⟨a, a1, a2, ha⟩, _, ⟨b, b1, b2, hb⟩, _⟩ := scanDigit_spec v v p hv (le_refl _)
  have ea : a = v := by omega
  have eb : b = v := by omega
  subst ea
  rw [eb] at hb
  cases h : scanDigit p (loopValues a a) newValueRange with
  | mk mx mn =>
    rw [h] at ha hb
    simp only at ha hb
    subst ha
    subst hb
    rfl

theorem simplifiedAtom_single (d : Int) :
    simplifiedAtom { max := d, min := d } = [digitChr d] := by
  simp [simplifiedAtom]

/-- The record of a field all of whose more significant fields, and itself, are
equal in `s` and `e`. -/
theorem box_of_eq (s e : Time) (hs : inDomain s) (k p : Nat) (hk : k ≤ 5)
    (h : ∀ j, j ≤ k → fieldValue j s = fieldValue j e) :
    simplifiedAtom (box s e k p) = [digitChr (digitAt (fieldValue k s) p)] := by
  have d := inDomain_field s hs k hk
  have m := fieldMin_nonneg k
  cases k with
  | zero =>
    have h0 := h 0 (le_refl _)
    simp only [fieldValue] at h0 d
    simp only [box, yearBox, fieldValue]
    rw [← h0, scanDigit_self _ _ (by omega), simplifiedAtom_single]
  | succ k =>
    have ht : tight s e (k + 1) = true := (tight_iff s e (k + 1)).2 (fun j hj => h j (by omega))
    simp only [box, fieldBox, ht, if_true]
    rw [← h (k + 1) (le_refl _), scanDigit_self _ _ (by omega), simplifiedAtom_single]

theorem simplify_atom (vr : valueRange) (h : valid vr) : simplify (atom vr) = simplifiedAtom vr := by
  have := simplify_atom_append vr [] h
  rwa [List.append_nil, simplify_nil, List.append_nil] at this

/-- C9: for timestamps with fields in their domains, `start` strictly before `end`
and equal year, month, day, hour and minute, `genRegExp` returns the zero-padded
digits of those five fields followed by the second fragment compiled tight, the
rendering of the digit ranges of `[start_second, end_second]`; the two scenarios
yield `2020-05-01 00:00:0\d` and `2021-07-04 12:30:0[0-5]`. -/
theorem genRegExp_same_minute :
    (∀ s e : Time, inDomain s → inDomain e → before s e → s.year = e.year →
      s.month = e.month → s.day = e.day → s.hour = e.hour → s.minute = e.minute →
      ∃ secondPart, genRegExpSecond s.second e.second true = .ok secondPart ∧
        genRegExpRange (genDigitsRange s.second e.second 2) = .ok secondPart ∧
        genRegExp s e = .ok (pad 4 s.year ++ "-".toList ++ pad 2 s.month ++ "-".toList ++
          pad 2 s.day ++ " ".toList ++ pad 2 s.hour ++ ":".toList ++ pad 2 s.minute ++
          ":".toList ++ simplify secondPart)) ∧
    genRegExp ⟨2020, 5, 1, 0, 0, 0⟩ ⟨2020, 5, 1, 0, 0, 9⟩ =
      .ok "2020-05-01 00:00:0\\d".toList ∧
    genRegExp ⟨2021, 7, 4, 12, 30, 0⟩ ⟨2021, 7, 4, 12, 30, 5⟩ =
      .ok "2021-07-04 12:30:0[0-5]".toList := by
  refine ⟨?_, rfl, rfl⟩
  intro s e hs he hb hy hmo hd hh hmi
  have hsec : s.second ≤ e.second := by
    unfold before at hb
    omega
  have hall : ∀ k, k ≤ 4 → ∀ j, j ≤ k → fieldValue j s = fieldValue j e := by
    intro k hk j hj
    have : j ≤ 4 := le_trans hj hk
    interval_cases j <;> simp only [fieldValue] <;> assumption
  have ht : tight s e 5 = true := (tight_iff s e 5).2 (fun j hj => hall 4 (le_refl _) j (by omega))
  have hv := fun p => box_valid s e hs he hb 5 p (le_refl _)
  refine ⟨render (genDigitsRange s.second e.second 2), ?_, rfl, ?_⟩
  · rw [genRegExpSecond_eq, if_neg (by omega)]
    rfl
  · rw [genRegExp_eq_assemble s e hs he hb]
    have hsnd : simplify (render (genDigitsRange s.second e.second 2)) =
        simplifiedAtom (box s e 5 1) ++ simplifiedAtom (box s e 5 0) := by
      have e1 : ∀ p, scanDigit p (loopValues s.second e.second) newValueRange = box s e 5 p := by
        intro p
        simp only [box, fieldBox, ht, if_true, fieldValue]
      rw [genDigitsRange_two, render_two, e1, e1, simplify_atom_append _ _ (hv 1),
        simplify_atom _ (hv 0)]
    rw [hsnd]
    unfold assemble layoutOf
    simp only [box_of_eq s e hs 0 _ (by norm_num) (hall 0 (by norm_num)),
      box_of_eq s e hs 1 _ (by norm_num) (hall 1 (by norm_num)),
      box_of_eq s e hs 2 _ (by norm_num) (hall 2 (by norm_num)),
      box_of_eq s e hs 3 _ (by norm_num) (hall 3 (by norm_num)),
      box_of_eq s e hs 4 _ (by norm_num) (hall 4 (by norm_num))]
    rfl

theorem genRegExp_same_minute_witness :
    ∃ secondPart, genRegExpSecond 0 5 true = .ok secondPart ∧
      genRegExpRange (genDigitsRange 0 5 2) = .ok secondPart ∧
      genRegExp ⟨2021, 7, 4, 12, 30, 0⟩ ⟨2021, 7, 4, 12, 30, 5⟩ =
        .ok (pad 4 2021 ++ "-".toList ++ pad 2 7 ++ "-".toList ++
          pad 2 4 ++ " ".toList ++ pad 2 12 ++ ":".toList ++ pad 2 30 ++
          ":".toList ++ simplify secondPart) :=
  genRegExp_same_minute.1 ⟨2021, 7, 4, 12, 30, 0⟩ ⟨2021, 7, 4, 12, 30, 5⟩
    (by decide) (by decide) (by decide) rfl rfl rfl rfl rfl

/-- The substitution pass on a year fragment followed by more text. -/
theorem simplify_year_append (s e : Int) (h0 : 0 ≤ s) (h : s ≤ e) (rest : List Char) :
    simplify (render (genDigitsRange s e 4) ++ rest) =
      simplify (render (genDigitsRange s e 4)) ++ simplify rest := by
  have hv := fun p => scanDigit_valid s e p h0 h
  rw [render_year]
  simp only [List.append_assoc]
  unfold yearBox
  rw [simplify_atom_append _ _ (hv 3), simplify_atom_append _ _ (hv 2),
    simplify_atom_append _ _ (hv 1), simplify_atom_append _ _ (hv 0),
    simplify_atom_append _ _ (hv 3), simplify_atom_append _ _ (hv 2),
    simplify_atom_append _ _ (hv 1), simplify_atom _ (hv 0)]
  simp only [List.append_assoc]

/-- C10: for timestamps with fields in their domains, `start` strictly before
`end` and equal month, day, hour, minute and second, the pattern is the year
fragment (after the substitution pass) followed by the full-domain fragments
`-[0-1]\d-[0-3]\d [0-2]\d:[0-5]\d:[0-5]\d`. -/
theorem genRegExp_year_only (s e : Time) (hs : inDomain s) (_he : inDomain e)
    (hb : before s e)
    (hmo : s.month = e.month) (hd : s.day = e.day) (hh : s.hour = e.hour)
    (hmi : s.minute = e.minute) (hse : s.second = e.second) :
    ∃ yearPart, genRegExpYear s.year e.year = .ok yearPart ∧
      genRegExp s e = .ok (simplify yearPart ++
        "-[0-1]\\d-[0-3]\\d [0-2]\\d:[0-5]\\d:[0-5]\\d".toList) := by
  have hy : s.year < e.year := by
    unfold before at hb
    omega
  have hne : ¬ s.year = e.year := by omega
  refine ⟨render (genDigitsRange s.year e.year 4), rfl, ?_⟩
  rw [genRegExp_of_before s e hb]
  unfold inDomain at hs
  have hr : rawPattern s e = render (genDigitsRange s.year e.year 4) ++
      "-[0-1][0-9]-[0-3][0-9] [0-2][0-9]:[0-5][0-9]:[0-5][0-9]".toList := by
    unfold rawPattern
    simp only [hne, decide_False, Bool.false_and, ← hmo, ← hd, ← hh, ← hmi, ← hse]
    rw [month_full _ hs.2.1.1 hs.2.1.2, day_full _ hs.2.2.1.1 hs.2.2.1.2,
      hour_full _ hs.2.2.2.1.1 hs.2.2.2.1.2, minute_full _ hs.2.2.2.2.1.1 hs.2.2.2.2.1.2,
      minute_full _ hs.2.2.2.2.2.1 hs.2.2.2.2.2.2]
    simp only [List.append_assoc]
    rfl
  rw [hr, simplify_year_append _ _ hs.1.1 (by omega)]
  rfl

theorem genRegExp_year_only_witness :
    ∃ yearPart, genRegExpYear 2019 2021 = .ok yearPart ∧
      genRegExp ⟨2019, 7, 4, 12, 30, 5⟩ ⟨2021, 7, 4, 12, 30, 5⟩ = .ok (simplify yearPart ++
        "-[0-1]\\d-[0-3]\\d [0-2]\\d:[0-5]\\d:[0-5]\\d".toList) :=
  genRegExp_year_only ⟨2019, 7, 4, 12, 30, 5⟩ ⟨2021, 7, 4, 12, 30, 5⟩
    (by decide) (by decide) (by decide) rfl rfl rfl rfl rfl

/-! ## Single-valued vectors -/

theorem render_append_one (l : List valueRange) (x : valueRange) :
    render (l ++ [x]) = atom x ++ render l := by
  simp [render, List.foldl_append, renderStep_eq]

theorem render_eq_join (ds : List valueRange) :
    render ds = (ds.reverse.map atom).flatten := by
  induction ds using List.reverseRecOn with
  | nil => rfl
  | append_singleton l x ih =>
    rw [render_append_one, ih]
    simp

theorem atom_of_eq (vr : valueRange) (h : vr.max = vr.min) : atom vr = fmtInt vr.max := by
  simp [atom, renderStep, h]

theorem genDigitsRange_self (v : Int) (w : Nat) (hv : 0 ≤ v) :
    genDigitsRange v v w =
      (List.range w).map (fun p => ({ max := digitAt v p, min := digitAt v p } : valueRange)) := by
  apply List.ext_getElem?
  intro p
  by_cases hp : p < w
  · rw [genDigitsRange_getElem? v v w p hp, scanDigit_self v p hv]
    simp [List.getElem?_map, List.getElem?_range hp]
  · rw [List.getElem?_eq_none (by rw [genDigitsRange_length]; omega),
      List.getElem?_eq_none (by simp; omega)]

theorem pad_succ (w : Nat) (v : Int) :
    pad (w + 1) v = digitChr (digitAt v w) :: pad w v := by
  simp [pad, List.range_succ]

theorem render_self (v : Int) (w : Nat) (hv : 0 ≤ v) :
    render (genDigitsRange v v w) = pad w v := by
  rw [genDigitsRange_self v w hv]
  induction w with
  | zero => rfl
  | succ w ih =>
    rw [List.range_succ, List.map_append, List.map_singleton, render_append_one, ih, pad_succ,
      atom_of_eq _ rfl, fmtInt_digit _ (digitAt_bounds v w).1 (digitAt_bounds v w).2]
    rfl

theorem digitChr_toNat (d : Int) (h0 : 0 ≤ d) (h9 : d ≤ 9) :
    ((digitChr d).toNat : Int) - 48 = d := by
  interval_cases d <;> rfl

theorem decimalValue_foldl (s : List Char) (acc : Int) :
    s.foldl (fun a c => a * 10 + ((c.toNat : Int) - 48)) acc =
      acc * 10 ^ s.length + decimalValue s := by
  induction s generalizing acc with
  | nil => simp [decimalValue]
  | cons c s ih =>
    unfold decimalValue
    rw [List.foldl_cons, List.foldl_cons, ih, ih (0 * 10 + _), List.length_cons, pow_succ]
    ring

theorem pad_length (w : Nat) (v : Int) : (pad w v).length = w := by
  simp [pad]

theorem digitAt_mul_add (v : Int) (hv : 0 ≤ v) (w : Nat) :
    digitAt v w * 10 ^ w + v % 10 ^ w = v % 10 ^ (w + 1) := by
  unfold digitAt
  lift v to ℕ using hv
  norm_cast
  rw [pow_succ, Nat.mod_mul]
  ring

theorem decimalValue_pad (w : Nat) (v : Int) (hv : 0 ≤ v) : decimalValue (pad w v) = v % 10 ^ w := by
  induction w with
  | zero => simp [pad, decimalValue, Int.emod_one]
  | succ w ih =>
    rw [pad_succ]
    unfold decimalValue
    rw [List.foldl_cons, decimalValue_foldl, ih, pad_length,
      digitChr_toNat _ (digitAt_bounds v w).1 (digitAt_bounds v w).2]
    rw [← digitAt_mul_add v hv w]
    ring

theorem isDigit_pad (w : Nat) (v : Int) : ∀ c, c ∈ pad w v → c.isDigit = true := by
  intro c hc
  simp only [pad, List.mem_map] at hc
  obtain ⟨p, _, rfl⟩ := hc
  exact digitChr_isDigit _ (digitAt_bounds v p).1 (digitAt_bounds v p).2

/-! ## Scenarios -/

set_option maxRecDepth 100000 in
/-- C12: for 2020-01-01 00:00:00 .. 2020-12-31 23:59:59 the year fragment is the
literal `2020`, every other fragment is the full-domain fragment of its field,
and the pattern is `2020-[0-1]\d-[0-3]\d [0-2]\d:[0-5]\d:[0-5]\d`. -/
theorem genRegExp_whole_year :
    genRegExp ⟨2020, 1, 1, 0, 0, 0⟩ ⟨2020, 12, 31, 23, 59, 59⟩ =
      .ok "2020-[0-1]\\d-[0-3]\\d [0-2]\\d:[0-5]\\d:[0-5]\\d".toList ∧
    genRegExpYear 2020 2020 = .ok "2020".toList ∧
    genRegExpMonth 1 12 true = .ok "[0-1][0-9]".toList ∧
    genRegExpRange (genDigitsRange 1 12 2) = .ok "[0-1][0-9]".toList ∧
    genRegExpDay 1 31 false = .ok "[0-3][0-9]".toList ∧
    genRegExpRange (genDigitsRange 1 31 2) = .ok "[0-3][0-9]".toList ∧
    genRegExpHour 0 23 false = .ok "[0-2][0-9]".toList ∧
    genRegExpRange (genDigitsRange 0 23 2) = .ok "[0-2][0-9]".toList ∧
    genRegExpMinute 0 59 false = .ok "[0-5][0-9]".toList ∧
    genRegExpSecond 0 59 false = .ok "[0-5][0-9]".toList ∧
    genRegExpRange (genDigitsRange 0 59 2) = .ok "[0-5][0-9]".toList ∧
    simplify "2020-[0-1][0-9]-[0-3][0-9] [0-2][0-9]:[0-5][0-9]:[0-5][0-9]".toList =
      "2020-[0-1]\\d-[0-3]\\d [0-2]\\d:[0-5]\\d:[0-5]\\d".toList := by
  refine ⟨?_, ?_, ?_, ?_, ?_, ?_, ?_, ?_, ?_, ?_, ?_, ?_⟩ <;> rfl

set_option maxRecDepth 100000 in
/-- C13: for 2020-12-31 23:59:58 .. 2021-01-01 00:00:01 the year fragment is
`202[0-1]`, every subordinate field is compiled with the flag false, and the
pattern is `202[0-1]-[0-1][1-2]-[0-3]1 [0-2][0-3]:[0-5]\d:[0-5]\d`. -/
theorem genRegExp_new_year :
    genRegExp ⟨2020, 12, 31, 23, 59, 58⟩ ⟨2021, 1, 1, 0, 0, 1⟩ =
      .ok "202[0-1]-[0-1][1-2]-[0-3]1 [0-2][0-3]:[0-5]\\d:[0-5]\\d".toList ∧
    genRegExpYear 2020 2021 = .ok "202[0-1]".toList ∧
    (∀ k, 1 ≤ k → tight ⟨2020, 12, 31, 23, 59, 58⟩ ⟨2021, 1, 1, 0, 0, 1⟩ k = false) ∧
    genRegExpMonth 12 1 false = .ok "[0-1][1-2]".toList ∧
    genRegExpDay 31 1 false = .ok "[0-3]1".toList ∧
    genRegExpHour 23 0 false = .ok "[0-2][0-3]".toList ∧
    genRegExpMinute 59 0 false = .ok "[0-5][0-9]".toList ∧
    genRegExpSecond 58 1 false = .ok "[0-5][0-9]".toList := by
  refine ⟨rfl, rfl, ?_, rfl, rfl, rfl, rfl, rfl⟩
  intro k hk
  cases h : tight ⟨2020, 12, 31, 23, 59, 58⟩ ⟨2021, 1, 1, 0, 0, 1⟩ k with
  | false => rfl
  | true =>
    rw [tight_iff] at h
    have := h 0 (by omega)
    simp [fieldValue] at this

theorem genRegExp_new_year_witness :
    tight ⟨2020, 12, 31, 23, 59, 58⟩ ⟨2021, 1, 1, 0, 0, 1⟩ 3 = false :=
  genRegExp_new_year.2.2.1 3 (by decide)

/-! ## The two branches of a field compiler -/

theorem isDigitBox_scanDigit (lo hi : Int) (p : Nat) (h0 : 0 ≤ lo) (h : lo ≤ hi) :
    isDigitBox (fun v => lo ≤ v ∧ v ≤ hi) p (scanDigit p (loopValues lo hi) newValueRange) := by
  obtain ⟨⟨a, a1, a2, ha⟩, h2, ⟨b, b1, b2, hb⟩, h4⟩ := scanDigit_spec lo hi p h0 h
  exact ⟨⟨a, ⟨a1, a2⟩, ha⟩, fun v hv => h2 v hv.1 hv.2, ⟨b, ⟨b1, b2⟩, hb⟩,
    fun v hv => h4 v hv.1 hv.2⟩

theorem isDigitBox_merge (P Q : Int → Prop) (p : Nat) (a b : valueRange)
    (ha : isDigitBox P p a) (hb : isDigitBox Q p b) :
    isDigitBox (fun v => P v ∨ Q v) p (merge a b) := by
  obtain ⟨⟨u1, pu1, e1⟩, l1, ⟨u2, pu2, e2⟩, l2⟩ := ha
  obtain ⟨⟨w1, qw1, f1⟩, m1, ⟨w2, qw2, f2⟩, m2⟩ := hb
  have n1 := min_le_left a.min b.min
  have n2 := min_le_right a.min b.min
  have n3 := min_eq_or a.min b.min
  have x1 := le_max_left a.max b.max
  have x2 := le_max_right a.max b.max
  have x3 := max_eq_or a.max b.max
  refine ⟨?_, ?_, ?_, ?_⟩
  · rcases n3 with n3 | n3
    · exact ⟨u1, Or.inl pu1, e1.trans n3.symm⟩
    · exact ⟨w1, Or.inr qw1, f1.trans n3.symm⟩
  · rintro v (hv | hv)
    · exact le_trans n1 (l1 v hv)
    · exact le_trans n2 (m1 v hv)
  · rcases x3 with x3 | x3
    · exact ⟨u2, Or.inl pu2, e2.trans x3.symm⟩
    · exact ⟨w2, Or.inr qw2, f2.trans x3.symm⟩
  · rintro v (hv | hv)
    · exact le_trans (l2 v hv) x1
    · exact le_trans (m2 v hv) x2

/-- Both branches of a compiler that has the normal form of the field compilers. -/
theorem compilesField_of_eq (f : Int → Int → Bool → Except (List Char) (List Char))
    (name : String) (lo hi : Int) (hlo : 0 ≤ lo)
    (hf : ∀ s e flag, f s e flag =
      if flag = true ∧ s > e then .error (orderingError name s e)
      else .ok (fieldFragment lo hi s e flag)) :
    compilesField f lo hi := by
  intro s e hs1 hs2 he1 he2
  constructor
  · refine ⟨_, _, ?_, ?_, isDigitBox_merge _ _ 0 _ _
      (isDigitBox_scanDigit s hi 0 (by omega) hs2) (isDigitBox_scanDigit lo e 0 hlo he1),
      isDigitBox_merge _ _ 1 _ _
      (isDigitBox_scanDigit s hi 1 (by omega) hs2) (isDigitBox_scanDigit lo e 1 hlo he1)⟩
    · rw [hf, if_neg (by simp), genRegExpRange_eq]
      simp only [fieldFragment, genDigitsRange_two, mergeRanges_two]
      rfl
    · rw [genDigitsRange_two, genDigitsRange_two, mergeRanges_two]
  · intro hse
    refine ⟨_, _, ?_, genDigitsRange_two s e, isDigitBox_scanDigit s e 0 (by omega) hse,
      isDigitBox_scanDigit s e 1 (by omega) hse⟩
    rw [hf, if_neg (by omega), genRegExpRange_eq]
    simp only [fieldFragment, genDigitsRange_two]
    rfl

/-- C15: for each of the five fields and all start and end values of its domain,
the fragment compiled with the flag false is the rendering of the merged vector,
whose `min` and `max` at each digit position are the minimum and the maximum of
that digit over `[start, field_max] U [field_min, end]`; with the flag true and
`start <= end` it is the rendering of the extraction over exactly `[start, end]`. -/
theorem field_compilers_branches :
    compilesField genRegExpMonth 1 12 ∧ compilesField genRegExpDay 1 31 ∧
    compilesField genRegExpHour 0 23 ∧ compilesField genRegExpMinute 0 59 ∧
    compilesField genRegExpSecond 0 59 :=
  ⟨compilesField_of_eq _ "month" 1 12 (by norm_num) genRegExpMonth_eq,
    compilesField_of_eq _ "day" 1 31 (by norm_num) genRegExpDay_eq,
    compilesField_of_eq _ "hour" 0 23 (by norm_num) genRegExpHour_eq,
    compilesField_of_eq _ "minute" 0 59 (by norm_num) genRegExpMinute_eq,
    compilesField_of_eq _ "second" 0 59 (by norm_num) genRegExpSecond_eq⟩

theorem field_compilers_branches_witness :
    ∃ b0 b1, genRegExpMonth 12 1 false = genRegExpRange [b0, b1] ∧
      mergeRanges (genDigitsRange 12 12 2) (genDigitsRange 1 1 2) = [b0, b1] ∧
      isDigitBox (fun v => (12 ≤ v ∧ v ≤ 12) ∨ (1 ≤ v ∧ v ≤ 1)) 0 b0 ∧
      isDigitBox (fun v => (12 ≤ v ∧ v ≤ 12) ∨ (1 ≤ v ∧ v ≤ 1)) 1 b1 :=
  (field_compilers_branches.1 12 1 (by decide) (by decide) (by decide) (by decide)).1

/-! ## The records stay digits -/

/-- C18: for `0 <= lo <= hi` and every width, every record of `genDigitsRange`
satisfies `0 <= min <= max <= 9`, so no sentinel survives; the same holds for the
merged vector of the broadened branch of each field compiler when start and end
lie in the domain of the field. -/
theorem digit_ranges_valid :
    (∀ (lo hi : Int) (w : Nat), 0 ≤ lo → lo ≤ hi →
      ∀ vr, vr ∈ genDigitsRange lo hi w → 0 ≤ vr.min ∧ vr.min ≤ vr.max ∧ vr.max ≤ 9) ∧
    (∀ (fieldMin fieldMax : Int),
      (fieldMin, fieldMax) ∈ [((1 : Int), (12 : Int)), (1, 31), (0, 23), (0, 59), (0, 59)] →
      ∀ s e : Int, fieldMin ≤ s → s ≤ fieldMax → fieldMin ≤ e → e ≤ fieldMax →
      ∀ vr, vr ∈ mergeRanges (genDigitsRange s fieldMax 2) (genDigitsRange fieldMin e 2) →
        0 ≤ vr.min ∧ vr.min ≤ vr.max ∧ vr.max ≤ 9) := by
  constructor
  · intro lo hi w h0 h vr hvr
    obtain ⟨p, hp⟩ := List.getElem?_of_mem hvr
    have hpw : p < w := by
      by_contra hc
      rw [List.getElem?_eq_none (by rw [genDigitsRange_length]; omega)] at hp
      exact Option.noConfusion hp
    rw [genDigitsRange_getElem? lo hi w p hpw] at hp
    rw [← Option.some.inj hp]
    exact scanDigit_valid lo hi p h0 h
  · intro lo hi hmem s e hs1 hs2 he1 he2 vr hvr
    have hlo : 0 ≤ lo := by
      simp only [List.mem_cons, Prod.mk.injEq, List.mem_singleton] at hmem
      rcases hmem with h | h | h | h | h | h
      all_goals first | omega | simp at h
    rw [genDigitsRange_two, genDigitsRange_two, mergeRanges_two] at hvr
    simp only [List.mem_cons, List.mem_singleton] at hvr
    rcases hvr with rfl | rfl | h
    · exact merge_valid _ _ (scanDigit_valid s hi 0 (by omega) hs2)
        (scanDigit_valid lo e 0 hlo he1)
    · exact merge_valid _ _ (scanDigit_valid s hi 1 (by omega) hs2)
        (scanDigit_valid lo e 1 hlo he1)
    · simp at h

theorem digit_ranges_valid_witness :
    ∀ vr, vr ∈ genDigitsRange 8 12 2 → 0 ≤ vr.min ∧ vr.min ≤ vr.max ∧ vr.max ≤ 9 :=
  digit_ranges_valid.1 8 12 2 (by decide) (by decide)

/-! ## The cascade of flags -/

theorem tight_succ (s e : Time) (k : Nat) :
    tight s e (k + 1) = (tight s e k && decide (fieldValue k s = fieldValue k e)) := rfl

/-- C16: on success `genRegExp` returns `simplify` of the six fragments joined by
`-`, `-`, a space, `:` and `:`, where the year fragment is compiled over
`[start_year, end_year]` at width 4 and every other fragment by its field compiler
with a flag that is true exactly when every more significant field of `start`
equals that of `end`; the flag passed on is the inherited flag and the equality of
the current field. -/
theorem genRegExp_assembly (s e : Time) (p : List Char) (h : genRegExp s e = .ok p) :
    (∃ yearPart monthPart dayPart hourPart minutePart secondPart,
      genRegExpRange (genDigitsRange s.year e.year 4) = .ok yearPart ∧
      genRegExpYear s.year e.year = .ok yearPart ∧
      genRegExpMonth s.month e.month (tight s e 1) = .ok monthPart ∧
      genRegExpDay s.day e.day (tight s e 2) = .ok dayPart ∧
      genRegExpHour s.hour e.hour (tight s e 3) = .ok hourPart ∧
      genRegExpMinute s.minute e.minute (tight s e 4) = .ok minutePart ∧
      genRegExpSecond s.second e.second (tight s e 5) = .ok secondPart ∧
      p = simplify (yearPart ++ "-".toList ++ monthPart ++ "-".toList ++ dayPart ++
        " ".toList ++ hourPart ++ ":".toList ++ minutePart ++ ":".toList ++ secondPart)) ∧
    (∀ k, tight s e k = true ↔ ∀ j, j < k → fieldValue j s = fieldValue j e) ∧
    (∀ k, tight s e (k + 1) = (tight s e k && decide (fieldValue k s = fieldValue k e))) := by
  refine ⟨?_, tight_iff s e, tight_succ s e⟩
  have hp := genRegExp_ok_eq s e p h
  rw [genRegExp_eq] at h
  have t1 : tight s e 1 = decide (s.year = e.year) := by simp [tight, fieldValue]
  have t2 : tight s e 2 = (decide (s.year = e.year) && decide (s.month = e.month)) := by
    simp [tight, fieldValue]
  have t3 : tight s e 3 = (decide (s.year = e.year) && decide (s.month = e.month) &&
      decide (s.day = e.day)) := by
    simp [tight, fieldValue]
  have t4 : tight s e 4 = (decide (s.year = e.year) && decide (s.month = e.month) &&
      decide (s.day = e.day) && decide (s.hour = e.hour)) := by
    simp [tight, fieldValue]
  have t5 : tight s e 5 = (decide (s.year = e.year) && decide (s.month = e.month) &&
      decide (s.day = e.day) && decide (s.hour = e.hour) && decide (s.minute = e.minute)) := by
    simp [tight, fieldValue]
  split_ifs at h with h1 h2 h3 h4 h5
  refine ⟨render (genDigitsRange s.year e.year 4),
    fieldFragment 1 12 s.month e.month (tight s e 1),
    fieldFragment 1 31 s.day e.day (tight s e 2),
    fieldFragment 0 23 s.hour e.hour (tight s e 3),
    fieldFragment 0 59 s.minute e.minute (tight s e 4),
    fieldFragment 0 59 s.second e.second (tight s e 5), rfl, rfl, ?_, ?_, ?_, ?_, ?_, ?_⟩
  · rw [genRegExpMonth_eq, if_neg]
    rw [t1]
    simpa using fun hy => not_lt.1 (fun hc => h1 ⟨hy, hc⟩)
  · rw [genRegExpDay_eq, if_neg]
    rw [t2]
    simpa using fun hy hm => not_lt.1 (fun hc => h2 ⟨⟨hy, hm⟩, hc⟩)
  · rw [genRegExpHour_eq, if_neg]
    rw [t3]
    simpa using fun hy hm hd => not_lt.1 (fun hc => h3 ⟨⟨hy, hm, hd⟩, hc⟩)
  · rw [genRegExpMinute_eq, if_neg]
    rw [t4]
    simpa using fun hy hm hd hh => not_lt.1 (fun hc => h4 ⟨⟨hy, hm, hd, hh⟩, hc⟩)
  · rw [genRegExpSecond_eq, if_neg]
    rw [t5]
    simpa using fun hy hm hd hh hmi => not_lt.1 (fun hc => h5 ⟨⟨hy, hm, hd, hh, hmi⟩, hc⟩)
  · rw [hp, t1, t2, t3, t4, t5]
    rfl

theorem genRegExp_assembly_witness :
    (∃ yearPart monthPart dayPart hourPart minutePart secondPart,
      genRegExpRange (genDigitsRange 2021 2021 4) = .ok yearPart ∧
      genRegExpYear 2021 2021 = .ok yearPart ∧
      genRegExpMonth 7 7 (tight ⟨2021, 7, 4, 12, 30, 0⟩ ⟨2021, 7, 4, 12, 30, 5⟩ 1) =
        .ok monthPart ∧
      genRegExpDay 4 4 (tight ⟨2021, 7, 4, 12, 30, 0⟩ ⟨2021, 7, 4, 12, 30, 5⟩ 2) =
        .ok dayPart ∧
      genRegExpHour 12 12 (tight ⟨2021, 7, 4, 12, 30, 0⟩ ⟨2021, 7, 4, 12, 30, 5⟩ 3) =
        .ok hourPart ∧
      genRegExpMinute 30 30 (tight ⟨2021, 7, 4, 12, 30, 0⟩ ⟨2021, 7, 4, 12, 30, 5⟩ 4) =
        .ok minutePart ∧
      genRegExpSecond 0 5 (tight ⟨2021, 7, 4, 12, 30, 0⟩ ⟨2021, 7, 4, 12, 30, 5⟩ 5) =
        .ok secondPart ∧
      "2021-07-04 12:30:0[0-5]".toList =
        simplify (yearPart ++ "-".toList ++ monthPart ++ "-".toList ++ dayPart ++
        " ".toList ++ hourPart ++ ":".toList ++ minutePart ++ ":".toList ++ secondPart)) :=
  (genRegExp_assembly ⟨2021, 7, 4, 12, 30, 0⟩ ⟨2021, 7, 4, 12, 30, 5⟩
    "2021-07-04 12:30:0[0-5]".toList rfl).1

/-! ## An end year below the start year -/

theorem loopValues_empty (lo hi : Int) (h : hi < lo) : loopValues lo hi = [] := by
  have : (hi + 1 - lo).toNat = 0 := by omega
  simp [loopValues, this]

theorem genDigitsRange_empty (lo hi : Int) (nd : Nat) (h : hi < lo) :
    genDigitsRange lo hi nd = List.replicate nd newValueRange := by
  simp [genDigitsRange, loopValues_empty lo hi h]

theorem simplify_sentinel (rest : List Char) :
    simplify ("[2147483647--2147483648]".toList ++ rest) =
      "[2147483647--2147483648]".toList ++ simplify rest := by
  show simplify ('[' :: '2' :: _) = _
  rw [simplify_cons_of_no_class _ _ (by rintro ⟨t, ht⟩; simp at ht)]
  simp [simplify_cons_of_ne]

/-- C20: when the start year exceeds the end year `genRegExp` does not return an
error, whatever the other fields are (in their domains or not); `genDigitsRange` over the empty range leaves
the sentinels at every position, and the returned pattern begins with the year
fragment `[2147483647--2147483648]` repeated four times. -/
theorem genRegExp_year_unchecked (s e : Time) (h : s.year > e.year) :
    ¬ isError (genRegExp s e) ∧
    genDigitsRange s.year e.year 4 =
      [newValueRange, newValueRange, newValueRange, newValueRange] ∧
    newValueRange.min = 2147483647 ∧ newValueRange.max = -2147483648 ∧
    genRegExpYear s.year e.year = .ok
      ("[2147483647--2147483648]".toList ++ "[2147483647--2147483648]".toList ++
        "[2147483647--2147483648]".toList ++ "[2147483647--2147483648]".toList) ∧
    ∃ rest, genRegExp s e = .ok
      ("[2147483647--2147483648]".toList ++ "[2147483647--2147483648]".toList ++
        "[2147483647--2147483648]".toList ++ "[2147483647--2147483648]".toList ++ rest) := by
  have hne : ¬ s.year = e.year := by omega
  have hd := genDigitsRange_empty s.year e.year 4 (by omega)
  have hy : render (genDigitsRange s.year e.year 4) =
      "[2147483647--2147483648]".toList ++ ("[2147483647--2147483648]".toList ++
        ("[2147483647--2147483648]".toList ++ "[2147483647--2147483648]".toList)) := by
    rw [hd]
    rfl
  have hg : genRegExp s e = .ok (simplify (rawPattern s e)) := by
    rw [genRegExp_eq]
    simp [hne]
  refine ⟨?_, ?_, rfl, rfl, ?_, ?_⟩
  · rw [hg]
    simp [isError]
  · rw [hd]
    rfl
  · rw [genRegExpYear_eq, hy]
    simp
  · rw [hg]
    unfold rawPattern
    rw [hy]
    simp only [List.append_assoc]
    rw [simplify_sentinel, simplify_sentinel, simplify_sentinel, simplify_sentinel]
    exact ⟨_, rfl⟩

theorem genRegExp_year_unchecked_witness :
    ∃ rest, genRegExp ⟨2021, 1, 31, 0, 0, 0⟩ ⟨2020, 3, 1, 0, 0, 0⟩ = .ok
      ("[2147483647--2147483648]".toList ++ "[2147483647--2147483648]".toList ++
        "[2147483647--2147483648]".toList ++ "[2147483647--2147483648]".toList ++ rest) :=
  (genRegExp_year_unchecked ⟨2021, 1, 31, 0, 0, 0⟩ ⟨2020, 3, 1, 0, 0, 0⟩ (by decide)).2.2.2.2.2

/-! ## The substitution pass is cosmetic -/

theorem simplify_cases (c : Char) (rest : List Char) :
    (c = '[' ∧ ∃ r, rest = '0' :: '-' :: '9' :: ']' :: r ∧
      simplify (c :: rest) = '\\' :: 'd' :: simplify r) ∨
    ((¬ (c = '[' ∧ ['0', '-', '9', ']'] <+: rest)) ∧
      simplify (c :: rest) = c :: simplify rest) := by
  by_cases hc : c = '['
  · by_cases hp : ['0', '-', '9', ']'] <+: rest
    · obtain ⟨r, rfl⟩ := hp
      subst hc
      exact Or.inl ⟨rfl, r, rfl, simplify_class r⟩
    · exact Or.inr ⟨fun h => hp h.2, simplify_cons_of_no_class c rest hp⟩
  · exact Or.inr ⟨fun h => hc h.1, simplify_cons_of_ne c rest hc⟩

theorem startsD_of_simplify (l : List Char) (h : startsD (simplify l)) : startsD l := by
  obtain ⟨r, hr⟩ := h
  obtain ⟨r', rfl, _⟩ := simplify_eq_cons 'd' l r (by decide) (by decide) hr
  exact ⟨r', rfl⟩

theorem classTail_of_simplify (l : List Char) (h : classTail (simplify l)) : classTail l := by
  obtain ⟨a, b, r, hr⟩ := h
  cases l with
  | nil => simp [simplify_nil] at hr
  | cons x l1 =>
    rcases simplify_cases x l1 with ⟨_, r1, _, h1⟩ | ⟨_, h1⟩
    · rw [h1] at hr
      simp at hr
    · rw [h1] at hr
      simp only [List.cons.injEq] at hr
      obtain ⟨rfl, hr⟩ := hr
      obtain ⟨l2, rfl, h2⟩ := simplify_eq_cons '-' l1 _ (by decide) (by decide) hr
      cases l2 with
      | nil => simp [simplify_nil] at h2
      | cons y l3 =>
        rcases simplify_cases y l3 with ⟨_, r3, _, h3⟩ | ⟨_, h3⟩
        · rw [h3] at h2
          simp at h2
        · rw [h3] at h2
          simp only [List.cons.injEq] at h2
          obtain ⟨rfl, h2⟩ := h2
          obtain ⟨l4, rfl, _⟩ := simplify_eq_cons ']' l3 _ (by decide) (by decide) h2
          exact ⟨_, _, _, rfl⟩

theorem simplify_classTail (a b : Char) (r : List Char) :
    simplify (a :: '-' :: b :: ']' :: r) = a :: '-' :: b :: ']' :: simplify r := by
  rw [simplify_cons_of_no_class a _ (by rintro ⟨t, ht⟩; simp at ht),
    simplify_cons_of_ne '-' _ (by decide),
    simplify_cons_of_no_class b _ (by rintro ⟨t, ht⟩; simp at ht),
    simplify_cons_of_ne ']' _ (by decide)]

theorem reMatch_nil_right (x : Char) (p : List Char) : reMatch (x :: p) [] = false := by
  simp [reMatch]

theorem reMatch_nil_left (c : Char) (t : List Char) : reMatch [] (c :: t) = false := by
  simp [reMatch]

/-- A character that starts neither the token `\d` nor a class matches itself. -/
theorem reMatch_literal (x : Char) (p t : List Char) (c : Char)
    (h1 : x = '\\' → ¬ startsD p) (h2 : x = '[' → ¬ classTail p) :
    reMatch (x :: p) (c :: t) = ((x == c) && reMatch p t) := by
  rw [reMatch]
  · intro p' hx hp
    exact h1 hx ⟨p', hp⟩
  · intro a b p' hx hp
    exact h2 hx ⟨a, b, p', hp⟩

theorem isDigit_iff (c : Char) : c.isDigit = (decide ('0' ≤ c) && decide (c ≤ '9')) := by
  simp only [Char.isDigit, Char.le_def]
  rfl

theorem no_token_tail (tok : List Char) (c : Char) (l : List Char) (h : ¬ tok <:+: c :: l) :
    ¬ tok <:+: l :=
  fun hl => h (List.infix_cons hl)

theorem no_token_drop (tok : List Char) (l1 l2 : List Char) (h : ¬ tok <:+: l1 ++ l2) :
    ¬ tok <:+: l2 :=
  fun hl => h (hl.trans (List.suffix_append l1 l2).isInfix)

theorem not_startsD_of_no_token (l : List Char) (h : ¬ "\\d".toList <:+: '\\' :: l) :
    ¬ startsD l := by
  rintro ⟨r, rfl⟩
  exact h ⟨[], r, rfl⟩

/-- Without the token `\d` in `s`, the substitution pass keeps what is matched. -/
theorem reMatch_simplify_aux (n : Nat) :
    ∀ s : List Char, s.length ≤ n → ¬ "\\d".toList <:+: s →
      ∀ t, reMatch (simplify s) t = reMatch s t := by
  induction n with
  | zero =>
    intro s hs _ t
    have : s = [] := List.length_eq_zero.1 (by omega)
    rw [this, simplify_nil]
  | succ n ih =>
    intro s hs hno t
    cases s with
    | nil => rw [simplify_nil]
    | cons x rest =>
      have hlen : rest.length ≤ n := by
        simp only [List.length_cons] at hs
        omega
      have hrest := no_token_tail _ _ _ hno
      rcases simplify_cases x rest with ⟨hx, r, hr, h1⟩ | ⟨hnc, h1⟩
      · subst hx
        subst hr
        rw [h1]
        have hr' : ¬ "\\d".toList <:+: r :=
          no_token_drop _ ['[', '0', '-', '9', ']'] r hno
        cases t with
        | nil => rw [reMatch_nil_right, reMatch_nil_right]
        | cons c t' =>
          rw [reMatch_digit, reMatch_class, isDigit_iff,
            ih r (by simp only [List.length_cons] at hlen; omega) hr' t']
      · rw [h1]
        by_cases hcl : x = '[' ∧ classTail rest
        · obtain ⟨hx, a, b, r, hr⟩ := hcl
          subst hx
          subst hr
          have hr' : ¬ "\\d".toList <:+: r :=
            no_token_drop _ ['[', a, '-', b, ']'] r hno
          rw [simplify_classTail]
          cases t with
          | nil => rw [reMatch_nil_right, reMatch_nil_right]
          | cons c t' =>
            rw [reMatch_class, reMatch_class,
              ih r (by simp only [List.length_cons] at hlen; omega) hr' t']
        · have g1 : x = '\\' → ¬ startsD rest := by
            intro hx
            subst hx
            exact not_startsD_of_no_token rest hno
          have g2 : x = '[' → ¬ classTail rest := fun hx hc => hcl ⟨hx, hc⟩
          cases t with
          | nil => rw [reMatch_nil_right, reMatch_nil_right]
          | cons c t' =>
            rw [reMatch_literal x _ t' c (fun hx hd => g1 hx (startsD_of_simplify _ hd))
              (fun hx hc => g2 hx (classTail_of_simplify _ hc)),
              reMatch_literal x _ t' c g1 g2, ih rest hlen hrest t']

theorem reMatch_simplify (s : List Char) (h : ¬ "\\d".toList <:+: s) (t : List Char) :
    reMatch (simplify s) t = reMatch s t :=
  reMatch_simplify_aux s.length s (le_refl _) h t

theorem expand_token (rest : List Char) :
    expand ('\\' :: 'd' :: rest) = '[' :: '0' :: '-' :: '9' :: ']' :: expand rest := by
  simp [expand]

theorem expand_cons (c : Char) (rest : List Char) (h : c = '\\' → ¬ startsD rest) :
    expand (c :: rest) = c :: expand rest := by
  rw [expand]
  intro r hc hr
  exact h hc ⟨r, hr⟩

theorem expand_simplify (s : List Char) (h : ¬ "\\d".toList <:+: s) :
    expand (simplify s) = s := by
  induction s using simplify.induct with
  | case1 rest ih =>
    rw [simplify_class, expand_token,
      ih (no_token_drop _ ['[', '0', '-', '9', ']'] rest h)]
  | case2 c rest hne ih =>
    have hs : simplify (c :: rest) = c :: simplify rest := by
      rw [simplify]
      exact hne
    rw [hs, expand_cons, ih (no_token_tail _ _ _ h)]
    intro hc hd
    subst hc
    exact not_startsD_of_no_token rest h (startsD_of_simplify _ hd)
  | case3 => rfl

theorem simplify_of_no_class (l : List Char) (h : ¬ "[0-9]".toList <:+: l) : simplify l = l := by
  induction l with
  | nil => exact simplify_nil
  | cons c r ih =>
    rcases simplify_cases c r with ⟨hc, r', hr, _⟩ | ⟨_, h1⟩
    · exfalso
      apply h
      rw [hc, hr]
      exact ⟨[], r', rfl⟩
    · rw [h1, ih (no_token_tail _ _ _ h)]

theorem simplify_idempotent (s : List Char) : simplify (simplify s) = simplify s :=
  simplify_of_no_class _ (simplify_no_class s)

/-! ## The text built before the substitution pass has no backslash -/

theorem toDigitsCore_no_backslash (fuel n : Nat) (ds : List Char) (h : '\\' ∉ ds) :
    '\\' ∉ Nat.toDigitsCore 10 fuel n ds := by
  induction fuel generalizing n ds with
  | zero => exact h
  | succ fuel ih =>
    have hd : '\\' ∉ (n % 10).digitChar :: ds := by
      have hlt : n % 10 < 10 := Nat.mod_lt _ (by norm_num)
      have : (n % 10).digitChar ≠ '\\' := by
        generalize n % 10 = d at hlt
        interval_cases d <;> decide
      simp only [List.mem_cons, not_or]
      exact ⟨fun hc => this hc.symm, h⟩
    unfold Nat.toDigitsCore
    simp only
    split_ifs
    · exact hd
    · exact ih _ _ hd

theorem fmtInt_no_backslash (v : Int) : '\\' ∉ fmtInt v := by
  cases v with
  | ofNat n =>
    show '\\' ∉ (Nat.toDigits 10 n)
    exact toDigitsCore_no_backslash _ _ _ (List.not_mem_nil _)
  | negSucc n =>
    show '\\' ∉ '-' :: (Nat.toDigits 10 (n + 1))
    simp only [List.mem_cons, not_or]
    exact ⟨by decide, toDigitsCore_no_backslash _ _ _ (List.not_mem_nil _)⟩

theorem atom_no_backslash (vr : valueRange) : '\\' ∉ atom vr := by
  have h1 := fmtInt_no_backslash vr.max
  have h2 := fmtInt_no_backslash vr.min
  unfold atom renderStep
  split_ifs
  · simpa using h1
  · simp only [String.toList, List.append_nil, List.mem_append, List.mem_cons,
      List.mem_singleton, List.not_mem_nil, not_or]
    refine ⟨⟨⟨⟨?_, h2⟩, ?_⟩, h1⟩, ?_⟩ <;> simp

theorem render_no_backslash (ds : List valueRange) : '\\' ∉ render ds := by
  rw [render_eq_join]
  simp only [List.mem_flatten, List.mem_map, List.mem_reverse, not_exists, not_and]
  rintro l ⟨vr, _, rfl⟩
  exact atom_no_backslash vr

theorem fieldFragment_no_backslash (lo hi s e : Int) (flag : Bool) :
    '\\' ∉ fieldFragment lo hi s e flag := by
  unfold fieldFragment
  split_ifs <;> exact render_no_backslash _

theorem rawPattern_no_backslash (s e : Time) : '\\' ∉ rawPattern s e := by
  unfold rawPattern
  simp only [List.mem_append, not_or]
  refine ⟨⟨⟨⟨⟨⟨⟨⟨⟨⟨render_no_backslash _, ?_⟩, fieldFragment_no_backslash _ _ _ _ _⟩, ?_⟩,
    fieldFragment_no_backslash _ _ _ _ _⟩, ?_⟩, fieldFragment_no_backslash _ _ _ _ _⟩, ?_⟩,
    fieldFragment_no_backslash _ _ _ _ _⟩, ?_⟩, fieldFragment_no_backslash _ _ _ _ _⟩ <;>
    decide

theorem no_token_of_no_backslash (l : List Char) (h : '\\' ∉ l) : ¬ "\\d".toList <:+: l := by
  rintro ⟨a, b, hab⟩
  apply h
  rw [← hab]
  simp

/-! ## Reading a match backwards -/

theorem char_le_iff (a b : Char) : a ≤ b ↔ a.toNat ≤ b.toNat := Iff.rfl

theorem char_of_range (c : Char) (h1 : '0' ≤ c) (h2 : c ≤ '9') :
    ∃ k : Int, 0 ≤ k ∧ k ≤ 9 ∧ c = digitChr k := by
  rw [char_le_iff] at h1 h2
  have e0 : ('0' : Char).toNat = 48 := rfl
  have e9 : ('9' : Char).toNat = 57 := rfl
  rw [e0] at h1
  rw [e9] at h2
  refine ⟨(c.toNat : Int) - 48, by omega, by omega, ?_⟩
  unfold digitChr
  have : 48 + ((c.toNat : Int) - 48).toNat = c.toNat := by omega
  rw [this, Char.ofNat_toNat]

theorem reMatch_nil_iff (t : List Char) : reMatch [] t = true ↔ t = [] := by
  cases t with
  | nil => simp [reMatch]
  | cons c t => simp [reMatch]

/-- A run of characters that are neither `\` nor `[` matches itself only. -/
theorem reMatch_lits_iff (lits p : List Char) (h : ∀ c, c ∈ lits → c ≠ '\\' ∧ c ≠ '[')
    (str : List Char) :
    reMatch (lits ++ p) str = true ↔ ∃ t, str = lits ++ t ∧ reMatch p t = true := by
  induction lits generalizing str with
  | nil => simp
  | cons x l ih =>
    have hx := h x (List.mem_cons_self _ _)
    have hl : ∀ c, c ∈ l → c ≠ '\\' ∧ c ≠ '[' := fun c hc => h c (List.mem_cons_of_mem _ hc)
    cases str with
    | nil =>
      rw [List.cons_append, reMatch_nil_right]
      simp
    | cons c t =>
      rw [List.cons_append, reMatch_lit x _ t c hx.1 hx.2, Bool.and_eq_true, ih hl]
      simp only [beq_iff_eq, List.cons_append, List.cons.injEq]
      constructor
      · rintro ⟨rfl, t', rfl, ht'⟩
        exact ⟨t', ⟨rfl, rfl⟩, ht'⟩
      · rintro ⟨t', ⟨rfl, rfl⟩, ht'⟩
        exact ⟨rfl, t', rfl, ht'⟩

/-- What a simplified atom matches, as a whole pattern: one digit of the record. -/
theorem reMatch_atom_iff (vr : valueRange) (h : valid vr) (str : List Char) :
    reMatch (simplifiedAtom vr) str = true ↔
      ∃ k, vr.min ≤ k ∧ k ≤ vr.max ∧ str = [digitChr k] := by
  constructor
  · intro hm
    have key : ∃ k : Int, 0 ≤ k ∧ k ≤ 9 ∧ str = [digitChr k] := by
      obtain ⟨h0, h1, h2⟩ := h
      unfold simplifiedAtom at hm
      by_cases he : vr.max = vr.min
      · rw [if_pos he] at hm
        have := (reMatch_lits_iff [digitChr vr.max] [] (by
          intro c hc
          rw [List.mem_singleton] at hc
          subst hc
          exact ⟨digitChr_ne_backslash _ (by omega) h2, digitChr_ne_bracket _ (by omega) h2⟩)
          str).1 hm
        obtain ⟨t, rfl, ht⟩ := this
        rw [reMatch_nil_iff] at ht
        subst ht
        exact ⟨vr.max, by omega, h2, rfl⟩
      · rw [if_neg he] at hm
        cases str with
        | nil =>
          split_ifs at hm <;> simp [reMatch] at hm
        | cons c t =>
          by_cases hf : vr.min = 0 ∧ vr.max = 9
          · rw [if_pos hf, reMatch_digit, Bool.and_eq_true, reMatch_nil_iff, isDigit_iff,
              Bool.and_eq_true, decide_eq_true_eq, decide_eq_true_eq] at hm
            obtain ⟨⟨c1, c2⟩, rfl⟩ := hm
            obtain ⟨k, k0, k9, rfl⟩ := char_of_range c c1 c2
            exact ⟨k, k0, k9, rfl⟩
          · rw [if_neg hf, reMatch_class, Bool.and_eq_true, reMatch_nil_iff,
              Bool.and_eq_true, decide_eq_true_eq, decide_eq_true_eq] at hm
            obtain ⟨⟨c1, c2⟩, rfl⟩ := hm
            have z0 : ('0' : Char) ≤ digitChr vr.min :=
              (digitChr_le 0 vr.min (le_refl _) (by norm_num) h0 (by omega)).2 h0
            have z9 : digitChr vr.max ≤ ('9' : Char) :=
              (digitChr_le vr.max 9 (by omega) h2 (by norm_num) (le_refl _)).2 h2
            rw [char_le_iff] at c1 c2 z0 z9
            obtain ⟨k, k0, k9, rfl⟩ := char_of_range c
              ((char_le_iff _ _).2 (le_trans z0 c1)) ((char_le_iff _ _).2 (le_trans c2 z9))
            exact ⟨k, k0, k9, rfl⟩
    obtain ⟨k, k0, k9, rfl⟩ := key
    rw [reMatch_last vr h k k0 k9, decide_eq_true_eq] at hm
    exact ⟨k, hm.1, hm.2, rfl⟩
  · rintro ⟨k, k1, k2, rfl⟩
    obtain ⟨h0, h1, h2⟩ := h
    rw [reMatch_last vr ⟨h0, h1, h2⟩ k (by omega) (by omega), decide_eq_true_eq]
    exact ⟨k1, k2⟩

theorem textHead_safe (t : Time) : ∀ c, c ∈ textHead t → c ≠ '\\' ∧ c ≠ '[' := by
  have hd : ∀ c : Char, c.isDigit = true → c ≠ '\\' ∧ c ≠ '[' := by
    intro c hc
    constructor <;> rintro rfl <;> simp [Char.isDigit] at hc
  have hp : ∀ w v c, c ∈ pad w v → c ≠ '\\' ∧ c ≠ '[' := fun w v c hc =>
    hd c (isDigit_pad w v c hc)
  intro c hc
  simp only [textHead, String.toList, List.mem_append, List.mem_singleton, List.mem_cons,
    List.not_mem_nil, or_false] at hc
  rcases hc with ((((((((((hc | hc) | hc) | hc) | hc) | hc) | hc) | hc) | hc) | hc) | hc)
  · exact hp _ _ c hc
  · subst hc; decide
  · exact hp _ _ c hc
  · subst hc; decide
  · exact hp _ _ c hc
  · subst hc; decide
  · exact hp _ _ c hc
  · subst hc; decide
  · exact hp _ _ c hc
  · subst hc; decide
  · subst hc
    exact hd _ (digitChr_isDigit _ (digitAt_bounds _ _).1 (digitAt_bounds _ _).2)

theorem formatTime_eq_textHead (t : Time) :
    formatTime t = textHead t ++ [digitChr (digitAt t.second 0)] := rfl

/-! ## Exactness when only the last digit varies -/

theorem digitAt_zero (v : Int) : digitAt v 0 = v % 10 := by
  simp [digitAt]

theorem digitAt_one (v : Int) : digitAt v 1 = v / 10 % 10 := by
  simp [digitAt]

theorem box_valid_of_le (s e : Time) (hs : inDomain s) (he : inDomain e)
    (hle : ∀ k, k ≤ 5 → fieldValue k s ≤ fieldValue k e) (k p : Nat) (hk : k ≤ 5) :
    valid (box s e k p) := by
  cases k with
  | zero =>
    have h := hle 0 (by norm_num)
    have d := inDomain_field s hs 0 (by norm_num)
    simp only [fieldValue, fieldMin] at h d
    exact scanDigit_valid _ _ p d.1 h
  | succ k =>
    exact fieldBox_valid _ _ _ _ _ p (fieldMin_nonneg _) (inDomain_field s hs _ hk)
      (inDomain_field e he _ hk) (fun _ => hle _ hk)

theorem simplifiedAtom_of_eq (vr : valueRange) (d : Int) (h1 : vr.min = d) (h2 : vr.max = d) :
    simplifiedAtom vr = [digitChr d] := by
  simp [simplifiedAtom, h1, h2]

/-- The pattern when year, month, day, hour, minute and the tens digit of the
second are shared: the text of `start` with its last digit replaced by one atom. -/
theorem genRegExp_last_digit (s e : Time) (hs : inDomain s) (he : inDomain e)
    (hy : s.year = e.year) (hmo : s.month = e.month) (hd : s.day = e.day)
    (hh : s.hour = e.hour) (hmi : s.minute = e.minute) (hse : s.second ≤ e.second)
    (htens : digitAt s.second 1 = digitAt e.second 1) :
    valid (scanDigit 0 (loopValues s.second e.second) newValueRange) ∧
    genRegExp s e = .ok (textHead s ++
      simplifiedAtom (scanDigit 0 (loopValues s.second e.second) newValueRange)) := by
  have hs' := hs
  have he' := he
  unfold inDomain at hs' he'
  have hall : ∀ k, k ≤ 4 → ∀ j, j ≤ k → fieldValue j s = fieldValue j e := by
    intro k hk j hj
    have : j ≤ 4 := le_trans hj hk
    interval_cases j <;> simp only [fieldValue] <;> assumption
  have hle : ∀ k, k ≤ 5 → fieldValue k s ≤ fieldValue k e := by
    intro k hk
    interval_cases k <;> simp only [fieldValue] <;> omega
  have hno : ∀ k, 1 ≤ k → k ≤ 5 → ¬ contradicts s e k := by
    intro k _ h5 hc
    have := hle k h5
    have := hc.2
    omega
  have ht : tight s e 5 = true :=
    (tight_iff s e 5).2 (fun j hj => hall 4 (le_refl _) j (by omega))
  have hb : ∀ p, box s e 5 p = scanDigit p (loopValues s.second e.second) newValueRange := by
    intro p
    simp only [box, fieldBox, ht, if_true, fieldValue]
  have hv0 := scanDigit_valid s.second e.second 0 (by omega) hse
  refine ⟨hv0, ?_⟩
  rw [genRegExp_of_no_contradiction s e hno,
    simplify_rawPattern s e (fun k p hk => box_valid_of_le s e hs he hle k p hk)]
  have htensBox : simplifiedAtom (box s e 5 1) = [digitChr (digitAt s.second 1)] := by
    rw [hb 1]
    obtain ⟨⟨a, a1, a2, ha⟩, _, ⟨b, b1, b2, hb'⟩, _⟩ :=
      scanDigit_spec s.second e.second 1 (by omega) hse
    apply simplifiedAtom_of_eq
    · rw [← ha]
      simp only [digitAt_one] at htens ⊢
      omega
    · rw [← hb']
      simp only [digitAt_one] at htens ⊢
      omega
  unfold assemble layoutOf
  simp only [box_of_eq s e hs 0 _ (by norm_num) (hall 0 (by norm_num)),
    box_of_eq s e hs 1 _ (by norm_num) (hall 1 (by norm_num)),
    box_of_eq s e hs 2 _ (by norm_num) (hall 2 (by norm_num)),
    box_of_eq s e hs 3 _ (by norm_num) (hall 3 (by norm_num)),
    box_of_eq s e hs 4 _ (by norm_num) (hall 4 (by norm_num)), htensBox, hb 0]
  rfl

theorem textHead_congr (s t : Time) (hy : s.year = t.year) (hmo : s.month = t.month)
    (hd : s.day = t.day) (hh : s.hour = t.hour) (hmi : s.minute = t.minute)
    (htens : digitAt s.second 1 = digitAt t.second 1) : textHead t = textHead s := by
  unfold textHead
  rw [hy, hmo, hd, hh, hmi, htens]

/-- C19: for timestamps with fields in their domains, `start <= end`, and equal
year, month, day, hour, minute and tens digit of the second, the strings matched
by the pattern that `genRegExp` returns are exactly the texts
`YYYY-MM-DD HH:MM:SS` of the timestamps `t` with `start <= t <= end`. -/
theorem genRegExp_exact_last_digit (s e : Time) (hs : inDomain s) (he : inDomain e)
    (hle : notAfter s e) (hy : s.year = e.year) (hmo : s.month = e.month)
    (hd : s.day = e.day) (hh : s.hour = e.hour) (hmi : s.minute = e.minute)
    (htens : digitAt s.second 1 = digitAt e.second 1) :
    ∃ p, genRegExp s e = .ok p ∧
      ∀ str : List Char, reMatch p str = true ↔
        ∃ t : Time, inDomain t ∧ notAfter s t ∧ notAfter t e ∧ str = formatTime t := by
  have hse : s.second ≤ e.second := by
    rcases hle with h | h
    · unfold before at h
      omega
    · rw [h]
  obtain ⟨hv, hp⟩ := genRegExp_last_digit s e hs he hy hmo hd hh hmi hse htens
  refine ⟨_, hp, fun str => ?_⟩
  have hs' := hs
  have he' := he
  unfold inDomain at hs' he'
  rw [reMatch_lits_iff _ _ (textHead_safe s)]
  constructor
  · rintro ⟨t', rfl, ht'⟩
    rw [reMatch_atom_iff _ hv] at ht'
    obtain ⟨k, k1, k2, rfl⟩ := ht'
    obtain ⟨⟨a, a1, a2, ha⟩, _, ⟨b, b1, b2, hb⟩, _⟩ :=
      scanDigit_spec s.second e.second 0 (by omega) hse
    rw [← ha] at k1
    rw [← hb] at k2
    simp only [digitAt_zero] at k1 k2
    simp only [digitAt_one] at htens
    have x1 : s.second ≤ 10 * (s.second / 10) + k := by omega
    have x2 : 10 * (s.second / 10) + k ≤ e.second := by omega
    have x3 : digitAt (10 * (s.second / 10) + k) 1 = digitAt s.second 1 := by
      simp only [digitAt_one]
      omega
    have x4 : digitAt (10 * (s.second / 10) + k) 0 = k := by
      simp only [digitAt_zero]
      omega
    refine ⟨⟨s.year, s.month, s.day, s.hour, s.minute, 10 * (s.second / 10) + k⟩, ?_, ?_, ?_, ?_⟩
    · unfold inDomain
      simp only
      omega
    · by_cases hk : s.second = 10 * (s.second / 10) + k
      · right
        cases s with
        | mk y mo d h mi se =>
          simp only at hk
          simp only [Time.mk.injEq, true_and]
          exact hk
      · left
        unfold before
        exact Or.inr ⟨rfl, Or.inr ⟨rfl, Or.inr ⟨rfl, Or.inr ⟨rfl, Or.inr
          ⟨rfl, lt_of_le_of_ne x1 hk⟩⟩⟩⟩⟩
    · by_cases hk : 10 * (s.second / 10) + k = e.second
      · right
        cases e with
        | mk y mo d h mi se =>
          simp only at hk hy hmo hd hh hmi
          simp only [Time.mk.injEq]
          exact ⟨hy, hmo, hd, hh, hmi, hk⟩
      · left
        unfold before
        exact Or.inr ⟨hy, Or.inr ⟨hmo, Or.inr ⟨hd, Or.inr ⟨hh, Or.inr
          ⟨hmi, lt_of_le_of_ne x2 hk⟩⟩⟩⟩⟩
    · rw [formatTime_eq_textHead,
        textHead_congr s ⟨s.year, s.month, s.day, s.hour, s.minute, 10 * (s.second / 10) + k⟩
          rfl rfl rfl rfl rfl x3.symm]
      simp only
      rw [x4]
  · rintro ⟨t, _, hst, hte, rfl⟩
    have hfields : s.year = t.year ∧ s.month = t.month ∧ s.day = t.day ∧ s.hour = t.hour ∧
        s.minute = t.minute ∧ s.second ≤ t.second ∧ t.second ≤ e.second := by
      rcases hst with h1 | h1
      · rcases hte with h2 | h2
        · unfold before at h1 h2
          omega
        · subst h2
          unfold before at h1
          omega
      · subst h1
        rcases hte with h2 | h2
        · unfold before at h2
          omega
        · subst h2
          omega
    obtain ⟨f1, f2, f3, f4, f5, f6, f7⟩ := hfields
    have ht1 : digitAt s.second 1 = digitAt t.second 1 := by
      simp only [digitAt_one] at htens ⊢
      omega
    refine ⟨[digitChr (digitAt t.second 0)], ?_, ?_⟩
    · rw [formatTime_eq_textHead, textHead_congr s t f1 f2 f3 f4 f5 ht1]
    · rw [reMatch_atom_iff _ hv]
      have hc := scanDigit_covers s.second e.second 0 t.second (by omega) f6 f7
      exact ⟨_, hc.1, hc.2, rfl⟩

theorem genRegExp_exact_last_digit_witness :
    ∃ p, genRegExp ⟨2021, 7, 4, 12, 30, 0⟩ ⟨2021, 7, 4, 12, 30, 5⟩ = .ok p ∧
      ∀ str : List Char, reMatch p str = true ↔
        ∃ t : Time, inDomain t ∧ notAfter ⟨2021, 7, 4, 12, 30, 0⟩ t ∧
          notAfter t ⟨2021, 7, 4, 12, 30, 5⟩ ∧ str = formatTime t :=
  genRegExp_exact_last_digit ⟨2021, 7, 4, 12, 30, 0⟩ ⟨2021, 7, 4, 12, 30, 5⟩
    (by decide) (by decide) (Or.inl (by decide)) rfl rfl rfl rfl rfl rfl

/-! ## The outer loop with its wrapping counter -/

theorem wrapInt_of_bounds (x : Int) (h1 : -9223372036854775808 ≤ x)
    (h2 : x ≤ 9223372036854775807) : wrapInt x = x := by
  unfold wrapInt
  omega

theorem wrapInt_le (x : Int) : wrapInt x ≤ 9223372036854775807 := by
  unfold wrapInt
  omega

/-- With the end at the greatest `int` the condition `i <= end` never fails. -/
theorem scanLoop_never_exits (nd fuel : Nat) (i : Int) (digits : List valueRange)
    (hi : i ≤ 9223372036854775807) :
    scanLoop nd 9223372036854775807 fuel i digits = none := by
  induction fuel generalizing i digits with
  | zero => rfl
  | succ fuel ih =>
    unfold scanLoop
    rw [if_pos hi]
    exact ih _ _ (wrapInt_le _)

theorem loopValues_cons (i hi : Int) (h : i ≤ hi) :
    loopValues i hi = i :: loopValues (i + 1) hi := by
  unfold loopValues
  have e : (hi + 1 - i).toNat = (hi + 1 - (i + 1)).toNat + 1 := by omega
  rw [e, List.range_succ_eq_map, List.map_cons, List.map_map]
  congr 1
  · simp
  · apply List.map_congr_left
    intro k _
    simp only [Function.comp_apply, Nat.succ_eq_add_one, Nat.cast_add, Nat.cast_one]
    ring

/-- Below the greatest `int` the loop exits and leaves what the scan of
`loopValues` computes. -/
theorem scanLoop_eq (nd : Nat) (hi : Int) (hb : hi < 9223372036854775807) (k : Nat) :
    ∀ (i : Int) (digits : List valueRange) (fuel : Nat), -9223372036854775808 ≤ i →
      (hi + 1 - i).toNat = k → k < fuel →
      scanLoop nd hi fuel i digits = some ((loopValues i hi).foldl (scanValue nd) digits) := by
  induction k with
  | zero =>
    intro i digits fuel _ hk hf
    obtain ⟨f, rfl⟩ : ∃ f, fuel = f + 1 := ⟨fuel - 1, by omega⟩
    unfold scanLoop
    rw [if_neg (by omega), loopValues_empty i hi (by omega)]
    rfl
  | succ k ih =>
    intro i digits fuel hlo hk hf
    obtain ⟨f, rfl⟩ : ∃ f, fuel = f + 1 := ⟨fuel - 1, by omega⟩
    have hle : i ≤ hi := by omega
    unfold scanLoop
    rw [if_pos hle, wrapInt_of_bounds (i + 1) (by omega) (by omega),
      ih (i + 1) _ f (by omega) (by omega) (by omega), loopValues_cons i hi hle]
    rfl

theorem genDigitsRangeRun_eq (lo hi : Int) (nd : Nat) (hlo : -9223372036854775808 ≤ lo)
    (hb : hi < 9223372036854775807) (fuel : Nat) (hf : (hi + 1 - lo).toNat < fuel) :
    genDigitsRangeRun fuel lo hi nd = some (genDigitsRange lo hi nd) :=
  scanLoop_eq nd hi hb _ lo _ fuel hlo rfl hf

/-- C6 at the greatest `int`: with `lo = hi` the greatest `int`, so `0 <= lo <= hi`,
`genDigitsRange` returns no vector: the counter wraps around and the loop
condition holds at every test. -/
theorem genDigitsRange_no_result_at_max :
    (0 : Int) ≤ 9223372036854775807 ∧
    ∀ fuel, genDigitsRangeRun fuel 9223372036854775807 9223372036854775807 1 = none :=
  ⟨by decide, fun fuel => scanLoop_never_exits 1 fuel _ _ (le_refl _)⟩

/-- C6 below the greatest `int`: for `0 <= lo <= hi` with `hi` below it and every
width `w`, `genDigitsRange lo hi w` returns (the loop exits) a vector of length
`w`, and at every position `p < w` its `min` and `max` are the minimum and the
maximum of `(floor(v / 10^p)) mod 10` over the integers `v` of `[lo, hi]`: each is
attained in the range and bounds every digit. -/
theorem genDigitsRange_min_max (lo hi : Int) (w : Nat) (h0 : 0 ≤ lo) (h : lo ≤ hi)
    (hb : hi < 9223372036854775807) :
    ∃ vec, (∃ fuel, ∀ n, fuel ≤ n → genDigitsRangeRun n lo hi w = some vec) ∧
      vec.length = w ∧
      ∀ p, p < w → ∃ r, vec[p]? = some r ∧
        (∃ v, lo ≤ v ∧ v ≤ hi ∧ digitAt v p = r.min) ∧
        (∀ v, lo ≤ v → v ≤ hi → r.min ≤ digitAt v p) ∧
        (∃ v, lo ≤ v ∧ v ≤ hi ∧ digitAt v p = r.max) ∧
        (∀ v, lo ≤ v → v ≤ hi → digitAt v p ≤ r.max) :=
  ⟨genDigitsRange lo hi w,
    ⟨(hi + 1 - lo).toNat + 1, fun n hn =>
      genDigitsRangeRun_eq lo hi w (by omega) hb n (by omega)⟩,
    genDigitsRange_length lo hi w, fun p hp =>
    ⟨_, genDigitsRange_getElem? lo hi w p hp, scanDigit_spec lo hi p h0 h⟩⟩

theorem genDigitsRange_min_max_witness :
    ∃ vec, (∃ fuel, ∀ n, fuel ≤ n → genDigitsRangeRun n 8 12 2 = some vec) ∧
      vec.length = 2 ∧
      ∀ p, p < 2 → ∃ r, vec[p]? = some r ∧
        (∃ v, (8 : Int) ≤ v ∧ v ≤ 12 ∧ digitAt v p = r.min) ∧
        (∀ v, (8 : Int) ≤ v → v ≤ 12 → r.min ≤ digitAt v p) ∧
        (∃ v, (8 : Int) ≤ v ∧ v ≤ 12 ∧ digitAt v p = r.max) ∧
        (∀ v, (8 : Int) ≤ v → v ≤ 12 → digitAt v p ≤ r.max) :=
  genDigitsRange_min_max 8 12 2 (by decide) (by decide) (by decide)

/-- C11 at the greatest `int`: for `v` the greatest `int`, so `v >= 0`, and width 4,
`genDigitsRange v v 4` returns no vector, so `genRegExpRange` is not reached and
no text is produced. -/
theorem genRegExpRange_no_result_at_max :
    (0 : Int) ≤ 9223372036854775807 ∧
    ∀ fuel, (genDigitsRangeRun fuel 9223372036854775807 9223372036854775807 4).map
      genRegExpRange = none :=
  ⟨by decide, fun fuel => by
    unfold genDigitsRangeRun
    rw [scanLoop_never_exits 4 fuel _ _ (le_refl _)]
    rfl⟩

/-- C11 below the greatest `int`: a vector whose `min` equals its `max` at every position renders
as the numerals of its values, most significant position first, and for digits
`0..9` as digit characters only, without any bracket; for `v >= 0` below the
greatest `int` and every width `w`, `genDigitsRange v v w` returns and
`genRegExpRange` of it is the `w`-character zero-padded decimal text of
`v mod 10^w`. -/
theorem genRegExpRange_single_valued :
    (∀ ds : List valueRange, (∀ vr, vr ∈ ds → vr.max = vr.min) →
      genRegExpRange ds = .ok ((ds.reverse.map (fun vr => fmtInt vr.max)).flatten)) ∧
    (∀ ds : List valueRange, (∀ vr, vr ∈ ds → vr.max = vr.min ∧ 0 ≤ vr.max ∧ vr.max ≤ 9) →
      genRegExpRange ds = .ok (ds.reverse.map (fun vr => digitChr vr.max)) ∧
      ∀ c, c ∈ ds.reverse.map (fun vr => digitChr vr.max) → c.isDigit = true ∧ c ≠ '[') ∧
    (∀ (v : Int) (w : Nat), 0 ≤ v → v < 9223372036854775807 →
      (∃ fuel, ∀ n, fuel ≤ n →
        (genDigitsRangeRun n v v w).map genRegExpRange = some (.ok (pad w v))) ∧
      (pad w v).length = w ∧ (∀ c, c ∈ pad w v → c.isDigit = true) ∧
      decimalValue (pad w v) = v % 10 ^ w) := by
  refine ⟨?_, ?_, ?_⟩
  · intro ds h
    rw [genRegExpRange_eq, render_eq_join]
    congr 2
    apply List.map_congr_left
    intro vr hvr
    exact atom_of_eq vr (h vr (List.mem_reverse.1 hvr))
  · intro ds h
    constructor
    · rw [genRegExpRange_eq, render_eq_join]
      congr 1
      have : ds.reverse.map atom = ds.reverse.map (fun vr => [digitChr vr.max]) := by
        apply List.map_congr_left
        intro vr hvr
        obtain ⟨h1, h2, h3⟩ := h vr (List.mem_reverse.1 hvr)
        rw [atom_of_eq vr h1, fmtInt_digit _ h2 h3]
      rw [this]
      induction ds.reverse with
      | nil => rfl
      | cons a l ih => simp [ih]
    · intro c hc
      rw [List.mem_map] at hc
      obtain ⟨vr, hvr, rfl⟩ := hc
      obtain ⟨_, h2, h3⟩ := h vr (List.mem_reverse.1 hvr)
      exact ⟨digitChr_isDigit _ h2 h3, digitChr_ne_bracket _ h2 h3⟩
  · intro v w hv hb
    refine ⟨⟨2, fun n hn => ?_⟩, pad_length w v, isDigit_pad w v, decimalValue_pad w v hv⟩
    rw [genDigitsRangeRun_eq v v w (by omega) hb n (by omega), Option.map_some',
      genRegExpRange_eq, render_self v w hv]

theorem genRegExpRange_single_valued_witness :
    (∃ fuel, ∀ n, fuel ≤ n →
        (genDigitsRangeRun n 2020 2020 4).map genRegExpRange = some (.ok (pad 4 2020))) ∧
      (pad 4 2020).length = 4 ∧ (∀ c, c ∈ pad 4 2020 → c.isDigit = true) ∧
      decimalValue (pad 4 2020) = 2020 % 10 ^ 4 :=
  genRegExpRange_single_valued.2.2 2020 4 (by decide) (by decide)

/-! ## The caller -/

/-- C14: when both arguments parse and the parsed start is not before the parsed
end, `run` returns the error `"<start>" must be older than "<end>"` whatever the
core compiler is, so the core is not reached and no pattern is produced; as
`Before` is irreflexive this covers the same argument given twice. -/
theorem run_rejects_unordered {T : Type} (parseTime : List Char → Except (List Char) T)
    (isBefore : T → T → Bool) (fields : T → Time) (start end_ : List Char) (s e : T)
    (hs : parseTime start = .ok s) (he : parseTime end_ = .ok e) :
    (isBefore s e = false →
      run parseTime isBefore fields start end_ =
        .error ("\"".toList ++ start ++ "\" must be older than \"".toList ++ end_ ++
          "\"".toList) ∧
      ∀ core, runWith parseTime isBefore core start end_ =
        .error ("\"".toList ++ start ++ "\" must be older than \"".toList ++ end_ ++
          "\"".toList)) ∧
    ((∀ t, isBefore t t = false) → start = end_ →
      run parseTime isBefore fields start end_ =
        .error ("\"".toList ++ start ++ "\" must be older than \"".toList ++ end_ ++
          "\"".toList)) := by
  have key : ∀ core, isBefore s e = false →
      runWith parseTime isBefore core start end_ =
        .error ("\"".toList ++ start ++ "\" must be older than \"".toList ++ end_ ++
          "\"".toList) := by
    intro core h
    simp [runWith, hs, he, h, bind, Except.bind, throw, throwThe, MonadExceptOf.throw]
  refine ⟨fun h => ⟨key _ h, fun core => key core h⟩, fun hirr hse => key _ ?_⟩
  subst hse
  rw [hs] at he
  rw [← Except.ok.inj he]
  exact hirr s

theorem run_rejects_unordered_witness :
    run (fun _ => .ok (⟨⟨2021, 7, 4, 12, 30, 5⟩, 0⟩ : Instant)) Instant.isBefore
        Instant.fields "2021-07-04 12:30:05".toList "2021-07-04 12:30:05".toList =
      .error "\"2021-07-04 12:30:05\" must be older than \"2021-07-04 12:30:05\"".toList :=
  ((run_rejects_unordered (fun _ => .ok (⟨⟨2021, 7, 4, 12, 30, 5⟩, 0⟩ : Instant))
    Instant.isBefore Instant.fields
    "2021-07-04 12:30:05".toList "2021-07-04 12:30:05".toList
    ⟨⟨2021, 7, 4, 12, 30, 5⟩, 0⟩ ⟨⟨2021, 7, 4, 12, 30, 5⟩, 0⟩ rfl rfl).1 (by decide)).1

/-! ## The substitution pass read by a regular expression engine -/

theorem isDigit_ne (c : Char) (h : c.isDigit = true) :
    c ≠ '[' ∧ c ≠ '\\' ∧ c ≠ ']' ∧ c ≠ '-' := by
  refine ⟨?_, ?_, ?_, ?_⟩ <;> rintro rfl <;> simp [Char.isDigit] at h

theorem parseClass_close (rest : List Char) : parseClass (']' :: rest) = some ([], rest) := by
  simp [parseClass]

theorem parseClass_range (a b : Char) (q : List Char) (ha : a.isDigit = true)
    (hb : b.isDigit = true) :
    parseClass (a :: '-' :: b :: ']' :: q) = some ([ClassItem.range a b], q) := by
  obtain ⟨_, _, a3, _⟩ := isDigit_ne a ha
  obtain ⟨_, _, b3, _⟩ := isDigit_ne b hb
  rw [parseClass, parseClass_close]
  · rfl
  · intro h1
    exact a3 h1
  · intro h1
    exact b3 h1

theorem reEngine_nil_right (x : Char) (p : List Char) : reEngine (x :: p) [] = false := by
  simp [reEngine]

theorem reEngine_digit (p s : List Char) (c : Char) :
    reEngine ('\\' :: 'd' :: p) (c :: s) = (c.isDigit && reEngine p s) := by
  simp [reEngine]

theorem reEngine_class (a b : Char) (p s : List Char) (c : Char) (ha : a.isDigit = true)
    (hb : b.isDigit = true) :
    reEngine ('[' :: a :: '-' :: b :: ']' :: p) (c :: s) =
      ((decide (a ≤ c) && decide (c ≤ b)) && reEngine p s) := by
  rw [reEngine, parseClass_range a b p ha hb]
  simp [ClassItem.accepts]

theorem reEngine_lit (x : Char) (p s : List Char) (c : Char) (h1 : x ≠ '\\') (h2 : x ≠ '[') :
    reEngine (x :: p) (c :: s) = ((x == c) && reEngine p s) := by
  rw [reEngine]
  · intro p' hx _
    exact h1 hx
  · intro hx
    exact h2 hx

theorem isDialect_class (a b : Char) (p : List Char) :
    isDialect ('[' :: a :: '-' :: b :: ']' :: p) = (a.isDigit && b.isDigit && isDialect p) := by
  simp [isDialect]

theorem isDialect_cons (c : Char) (p : List Char) (h : c ≠ '[') :
    isDialect (c :: p) = ((c.isDigit || c == '-' || c == ' ' || c == ':') && isDialect p) := by
  rw [isDialect]
  intro a b p' hc _
  exact h hc

theorem isLiteral_ne (c : Char) (h : (c.isDigit || c == '-' || c == ' ' || c == ':') = true) :
    c ≠ '[' ∧ c ≠ '\\' := by
  constructor <;> rintro rfl <;> simp [Char.isDigit] at h

/-- On a text of the dialect the substitution pass keeps what the engine matches,
and the matcher `reMatch` reads the text as the engine does. -/
theorem reEngine_simplify_of_dialect (s : List Char) (h : isDialect s = true) :
    ∀ t, reEngine (simplify s) t = reEngine s t ∧ reMatch s t = reEngine s t := by
  induction s using isDialect.induct with
  | case1 =>
    intro t
    rw [simplify_nil]
    cases t <;> simp [reMatch, reEngine]
  | case2 a b p ih =>
    rw [isDialect_class, Bool.and_eq_true, Bool.and_eq_true] at h
    obtain ⟨⟨ha, hb⟩, hp⟩ := h
    intro t
    cases t with
    | nil =>
      rw [reEngine_nil_right, reMatch_nil_right]
      rcases simplify_cases '[' (a :: '-' :: b :: ']' :: p) with ⟨_, r, _, h1⟩ | ⟨_, h1⟩
      · rw [h1, reEngine_nil_right]
        exact ⟨rfl, rfl⟩
      · rw [h1, reEngine_nil_right]
        exact ⟨rfl, rfl⟩
    | cons c t' =>
      rw [reEngine_class a b p t' c ha hb, reMatch_class, (ih hp t').2]
      refine ⟨?_, rfl⟩
      rcases simplify_cases '[' (a :: '-' :: b :: ']' :: p) with ⟨_, r, hr, h1⟩ | ⟨_, h1⟩
      · simp only [List.cons.injEq] at hr
        obtain ⟨rfl, -, rfl, -, rfl⟩ := hr
        rw [h1, reEngine_digit, isDigit_iff, (ih hp t').1]
      · rw [h1, simplify_classTail, reEngine_class a b _ t' c ha hb, (ih hp t').1]
  | case3 c p hne ih =>
    have hc : c ≠ '[' := by
      rintro rfl
      cases p with
      | nil => simp [isDialect, Char.isDigit] at h
      | cons x p' => 
        rw [isDialect] at h
        · simp [Char.isDigit] at h
        · intro a b q hq
          exact hne a b q hq
    rw [isDialect_cons c p hc, Bool.and_eq_true] at h
    obtain ⟨hl, hp⟩ := h
    obtain ⟨_, l2⟩ := isLiteral_ne c hl
    intro t
    rw [simplify_cons_of_ne c p hc]
    cases t with
    | nil =>
      rw [reEngine_nil_right, reEngine_nil_right, reMatch_nil_right]
      exact ⟨rfl, rfl⟩
    | cons x t' =>
      rw [reEngine_lit c _ t' x l2 hc, reEngine_lit c _ t' x l2 hc, reMatch_lit c _ t' x l2 hc,
        (ih hp t').1, (ih hp t').2]
      exact ⟨rfl, rfl⟩

theorem isDialect_atom_append (vr : valueRange) (p : List Char) (h : valid vr) :
    isDialect (atom vr ++ p) = isDialect p := by
  rw [atom_of_valid vr h]
  obtain ⟨h0, h1, h2⟩ := h
  split_ifs
  · show isDialect (digitChr vr.max :: p) = _
    rw [isDialect_cons _ _ (digitChr_ne_bracket _ (by omega) h2),
      digitChr_isDigit _ (by omega) h2]
    simp
  · show isDialect ('[' :: digitChr vr.min :: '-' :: digitChr vr.max :: ']' :: p) = _
    rw [isDialect_class, digitChr_isDigit _ h0 (by omega), digitChr_isDigit _ (by omega) h2]
    simp

/-- Under the precondition the text handed to `simplify` lies in the dialect. -/
theorem isDialect_rawPattern (s e : Time) (hs : inDomain s) (he : inDomain e)
    (hb : before s e) : isDialect (rawPattern s e) = true := by
  have hv := fun k p hk => box_valid s e hs he hb k p hk
  rw [rawPattern_eq,
    isDialect_atom_append _ _ (hv 0 3 (by norm_num)),
    isDialect_atom_append _ _ (hv 0 2 (by norm_num)),
    isDialect_atom_append _ _ (hv 0 1 (by norm_num)),
    isDialect_atom_append _ _ (hv 0 0 (by norm_num)),
    isDialect_cons _ _ (by decide),
    isDialect_atom_append _ _ (hv 1 1 (by norm_num)),
    isDialect_atom_append _ _ (hv 1 0 (by norm_num)),
    isDialect_cons _ _ (by decide),
    isDialect_atom_append _ _ (hv 2 1 (by norm_num)),
    isDialect_atom_append _ _ (hv 2 0 (by norm_num)),
    isDialect_cons _ _ (by decide),
    isDialect_atom_append _ _ (hv 3 1 (by norm_num)),
    isDialect_atom_append _ _ (hv 3 0 (by norm_num)),
    isDialect_cons _ _ (by decide),
    isDialect_atom_append _ _ (hv 4 1 (by norm_num)),
    isDialect_atom_append _ _ (hv 4 0 (by norm_num)),
    isDialect_cons _ _ (by decide),
    isDialect_atom_append _ _ (hv 5 1 (by norm_num)),
    isDialect_atom_append _ _ (hv 5 0 (by norm_num))]
  rfl

theorem no_backslash_of_dialect (s : List Char) (h : isDialect s = true) : '\\' ∉ s := by
  induction s using isDialect.induct with
  | case1 => simp
  | case2 a b p ih =>
    rw [isDialect_class, Bool.and_eq_true, Bool.and_eq_true] at h
    obtain ⟨⟨ha, hb⟩, hp⟩ := h
    have := ih hp
    simp only [List.mem_cons, not_or]
    exact ⟨by decide, fun hc => (isDigit_ne a ha).2.1 hc.symm, by decide,
      fun hc => (isDigit_ne b hb).2.1 hc.symm, by decide, this⟩
  | case3 c p hne ih =>
    have hc : c ≠ '[' := by
      rintro rfl
      cases p with
      | nil => simp [isDialect, Char.isDigit] at h
      | cons x p' =>
        rw [isDialect] at h
        · simp [Char.isDigit] at h
        · intro a b q hq
          exact hne a b q hq
    rw [isDialect_cons c p hc, Bool.and_eq_true] at h
    obtain ⟨hl, hp⟩ := h
    simp only [List.mem_cons, not_or]
    exact ⟨fun hx => (isLiteral_ne c hl).2 hx.symm, ih hp⟩

/-- C17 outside the dialect: the text `[[0-9]]` has no `\d`; read as a regular
expression it matches `5]` and not `5`, while `simplify` turns it into `[\d]`,
which matches `5` and not `5]`. -/
theorem simplify_changes_matches :
    ¬ "\\d".toList <:+: "[[0-9]]".toList ∧
    simplify "[[0-9]]".toList = "[\\d]".toList ∧
    reEngine "[[0-9]]".toList "5]".toList = true ∧
    reEngine (simplify "[[0-9]]".toList) "5]".toList = false ∧
    reEngine "[[0-9]]".toList "5".toList = false ∧
    reEngine (simplify "[[0-9]]".toList) "5".toList = true := by
  refine ⟨by decide, by decide, by decide, by decide, by decide, by decide⟩

/-- C17 on the dialect: for every text `s` without the token `\d`, replacing every `\d`
of `simplify s` by `[0-9]` gives back `s`; for every text `s` of the dialect of
the tool (literal digits, the separators, classes `[a-b]` of digits), which has no
`\d`, `simplify s` read as a regular expression matches exactly the strings that
`s` matches; the text that `genRegExp` hands to `simplify` has no `\d` and, for
timestamps in their domains with `start` before `end`, lies in the dialect; and
`simplify` is idempotent. -/
theorem simplify_cosmetic :
    (∀ s : List Char, ¬ "\\d".toList <:+: s → expand (simplify s) = s) ∧
    (∀ s : List Char, isDialect s = true →
      ¬ "\\d".toList <:+: s ∧
      ∀ t, reEngine (simplify s) t = reEngine s t ∧
        reMatch s t = reEngine s t ∧ reMatch (simplify s) t = reEngine (simplify s) t) ∧
    (∀ (startTime endTime : Time) (p : List Char), genRegExp startTime endTime = .ok p →
      ∃ raw, ¬ "\\d".toList <:+: raw ∧ p = simplify raw ∧ expand p = raw ∧
        (inDomain startTime → inDomain endTime → before startTime endTime →
          isDialect raw = true ∧ ∀ t, reEngine p t = reEngine raw t)) ∧
    (∀ s : List Char, simplify (simplify s) = simplify s) := by
  refine ⟨expand_simplify, ?_, ?_, simplify_idempotent⟩
  · intro s h
    have hno := no_token_of_no_backslash s (no_backslash_of_dialect s h)
    refine ⟨hno, fun t => ?_⟩
    obtain ⟨h1, h2⟩ := reEngine_simplify_of_dialect s h t
    exact ⟨h1, h2, by rw [reMatch_simplify s hno t, h2, h1]⟩
  · intro s e p h
    have hno := no_token_of_no_backslash _ (rawPattern_no_backslash s e)
    have hp := genRegExp_ok_eq s e p h
    subst hp
    refine ⟨rawPattern s e, hno, rfl, expand_simplify _ hno, fun hs he hb => ?_⟩
    have hd := isDialect_rawPattern s e hs he hb
    exact ⟨hd, fun t => (reEngine_simplify_of_dialect _ hd t).1⟩

theorem simplify_cosmetic_witness :
    ¬ "\\d".toList <:+: "2020-05-01 00:00:0[0-9]".toList ∧
      ∀ t, reEngine (simplify "2020-05-01 00:00:0[0-9]".toList) t =
          reEngine "2020-05-01 00:00:0[0-9]".toList t ∧
        reMatch "2020-05-01 00:00:0[0-9]".toList t =
          reEngine "2020-05-01 00:00:0[0-9]".toList t ∧
        reMatch (simplify "2020-05-01 00:00:0[0-9]".toList) t =
          reEngine (simplify "2020-05-01 00:00:0[0-9]".toList) t :=
  simplify_cosmetic.2.1 "2020-05-01 00:00:0[0-9]".toList (by decide)

end TT
